import Mathlib

/-!
# The Xinu process queue (`system/queue.c`, `system/newqueue.c`)

A shallow embedding of the doubly linked FIFO queue of process identifiers.

* The C heap of `struct qentry` cells is a list of optional cells indexed by
  address; a `struct qentry *` is an `Option Nat` (`none` is `NULL`).
* Every operation returns an `Option`: `none` stands for behaviour the C
  program does not define (following `NULL` or a freed cell) or for a loop
  that does not stop within the number of cells of the heap.
* `xinu.h` is not part of the sources: the constants `NPROC`, `SYSERR`,
  `EMPTY` and the macro `isbadpid` are the fields of `Config`.
* `size` is an unbounded integer: `enqueue` increments it only below `NPROC`
  and the removals decrement it only when it is not zero, so on the states
  considered here no 32-bit wrap-around can happen.
-/

namespace PidQueue

/-- The type `pid32` of process identifiers. -/
abbrev pid32 := Int

/-- One `struct qentry`: a pid and the two navigation pointers. -/
structure qentry where
  pid : pid32
  prev : Option Nat
  next : Option Nat
deriving DecidableEq, Repr

/-- The `struct queue`: head pointer, tail pointer and entry count. -/
structure queue where
  head : Option Nat
  tail : Option Nat
  size : Int
deriving DecidableEq, Repr

/-- The heap of queue entries: cell `a` is allocated iff it holds `some`. -/
abbrev Heap := List (Option qentry)

/-- What `xinu.h` supplies: the capacity, the two sentinels, the validator. -/
structure Config where
  NPROC : Nat
  SYSERR : pid32
  EMPTY : pid32
  isbadpid : pid32 → Bool

/-- A program state: the heap together with the queue structure. -/
structure State where
  mem : Heap
  q : queue
deriving DecidableEq, Repr

/-! ## Heap primitives -/

/-- Read cell `a`; `none` when `a` is not an allocated cell. -/
def load : Heap → Nat → Option qentry
  | [], _ => none
  | c :: _, 0 => c
  | _ :: m, a + 1 => load m a

/-- Overwrite cell `a` with `v`, growing the heap with free cells if needed. -/
def write : Heap → Nat → Option qentry → Heap
  | [], 0, v => [v]
  | [], a + 1, v => none :: write [] a v
  | _ :: m, 0, v => v :: m
  | c :: m, a + 1, v => c :: write m a v

/-- The allocator: `malloc` hands out the lowest free address (a cell freed
earlier is used again), or the address just past the heap; it never fails. -/
def malloc : Heap → Nat
  | [] => 0
  | none :: _ => 0
  | some _ :: m => malloc m + 1

/-- The call `free(p, ·)`: releases an allocated cell; undefined on another. -/
def free (mem : Heap) (p : Option Nat) : Option Heap :=
  match p with
  | none => none
  | some a =>
    match load mem a with
    | none => none
    | some _ => some (write mem a none)

/-- Follow a pointer: `p->...` is undefined on `NULL` and on a freed cell. -/
def deref (mem : Heap) (p : Option Nat) : Option qentry :=
  match p with
  | none => none
  | some a => load mem a

/-- The assignment `p->next = v`. -/
def setNext (mem : Heap) (p : Option Nat) (v : Option Nat) : Option Heap :=
  match p with
  | none => none
  | some a =>
    match load mem a with
    | none => none
    | some e => some (write mem a (some { e with next := v }))

/-- The assignment `p->prev = v`. -/
def setPrev (mem : Heap) (p : Option Nat) (v : Option Nat) : Option Heap :=
  match p with
  | none => none
  | some a =>
    match load mem a with
    | none => none
    | some e => some (write mem a (some { e with prev := v }))

/-! ## The operations of `newqueue.c` and `queue.c` -/

/-- The function `newqueue`: an empty queue on the heap `mem` it was called in. -/
def newqueue (mem : Heap) : State :=
  { mem := mem, q := { head := none, tail := none, size := 0 } }

/-- The function `isempty`. -/
def isempty (q : queue) : Bool := q.size == 0

/-- The function `nonempty`. -/
def nonempty (q : queue) : Bool := !isempty q

/-- The function `isfull`: at least `NPROC` entries. -/
def isfull (cfg : Config) (q : queue) : Bool := decide (q.size ≥ (cfg.NPROC : Int))

/-- The function `enqueue`: link a new entry behind the tail. -/
def enqueue (cfg : Config) (pid : pid32) (s : State) : Option (pid32 × State) :=
  if isfull cfg s.q || cfg.isbadpid pid then
    some (cfg.SYSERR, s)
  else
    let entry := malloc s.mem
    let m1 := write s.mem entry (some { pid := pid, prev := s.q.tail, next := none })
    if isempty s.q then
      some (pid, { mem := m1, q := { head := some entry, tail := some entry, size := s.q.size + 1 } })
    else
      match setNext m1 s.q.tail (some entry) with
      | none => none
      | some m2 =>
        some (pid, { mem := m2, q := { head := s.q.head, tail := some entry, size := s.q.size + 1 } })

/-- The function `dequeue`: unlink the head entry and return its pid. -/
def dequeue (cfg : Config) (s : State) : Option (pid32 × State) :=
  if isempty s.q then
    some (cfg.EMPTY, s)
  else
    let h := s.q.head
    let q1 : queue := { head := s.q.head, tail := s.q.tail, size := s.q.size - 1 }
    if isempty q1 then
      match deref s.mem h with
      | none => none
      | some he =>
        match free s.mem h with
        | none => none
        | some m => some (he.pid, { mem := m, q := { head := none, tail := none, size := q1.size } })
    else
      match deref s.mem h with
      | none => none
      | some he =>
        match setPrev s.mem he.next none with
        | none => none
        | some m1 =>
          match deref m1 h with
          | none => none
          | some he1 =>
            match free m1 h with
            | none => none
            | some m2 => some (he1.pid, { mem := m2, q := { head := he.next, tail := q1.tail, size := q1.size } })

/-- The loop of `getbypid`: the first entry from `curr` on that carries `pid`. -/
def getbypidLoop (mem : Heap) (pid : pid32) : Nat → Option Nat → Option (Option Nat)
  | _, none => some none
  | 0, some _ => none
  | fuel + 1, some c =>
    match load mem c with
    | none => none
    | some ce => if ce.pid = pid then some (some c) else getbypidLoop mem pid fuel ce.next

/-- The function `getbypid`: a pointer to the entry found, or `NULL`. -/
def getbypid (cfg : Config) (pid : pid32) (s : State) : Option (Option Nat × State) :=
  if isempty s.q || cfg.isbadpid pid then
    some (none, s)
  else
    match getbypidLoop s.mem pid s.mem.length s.q.head with
    | none => none
    | some r => some (r, s)

/-- The function `getfirst`. -/
def getfirst (cfg : Config) (s : State) : Option (pid32 × State) :=
  if isempty s.q then some (cfg.EMPTY, s) else dequeue cfg s

/-- The function `getlast`: unlink the tail entry and return its pid. -/
def getlast (cfg : Config) (s : State) : Option (pid32 × State) :=
  if isempty s.q then
    some (cfg.EMPTY, s)
  else
    let t := s.q.tail
    let q1 : queue := { head := s.q.head, tail := s.q.tail, size := s.q.size - 1 }
    if isempty q1 then
      match deref s.mem t with
      | none => none
      | some te =>
        match free s.mem t with
        | none => none
        | some m => some (te.pid, { mem := m, q := { head := none, tail := none, size := q1.size } })
    else
      match deref s.mem t with
      | none => none
      | some te =>
        match setNext s.mem te.prev none with
        | none => none
        | some m1 =>
          match deref m1 t with
          | none => none
          | some te1 =>
            match free m1 t with
            | none => none
            | some m2 => some (te1.pid, { mem := m2, q := { head := q1.head, tail := te.prev, size := q1.size } })

/-- The scan of `remove` (its last branch): splice out the first entry from
`curr` on that carries `pid`; `SYSERR` when the scan reaches `NULL`. -/
def removeLoop (cfg : Config) (pid : pid32) (s : State) : Nat → Option Nat → Option (pid32 × State)
  | _, none => some (cfg.SYSERR, s)
  | 0, some _ => none
  | fuel + 1, some c =>
    match load s.mem c with
    | none => none
    | some ce =>
      if ce.pid = pid then
        match setNext s.mem ce.prev ce.next with
        | none => none
        | some m1 =>
          match load m1 c with
          | none => none
          | some ce1 =>
            match setPrev m1 ce1.next ce1.prev with
            | none => none
            | some m2 =>
              match free m2 (some c) with
              | none => none
              | some m3 => some (pid, { mem := m3, q := { head := s.q.head, tail := s.q.tail, size := s.q.size - 1 } })
      else removeLoop cfg pid s fuel ce.next

/-- The function `remove`: take the entry carrying `pid` out of the queue. -/
def remove (cfg : Config) (pid : pid32) (s : State) : Option (pid32 × State) :=
  if isempty s.q then
    some (cfg.EMPTY, s)
  else if cfg.isbadpid pid then
    some (cfg.SYSERR, s)
  else
    match deref s.mem s.q.head with
    | none => none
    | some he =>
      if pid = he.pid then
        match getfirst cfg s with
        | none => none
        | some r => some (pid, r.2)
      else
        match deref s.mem s.q.tail with
        | none => none
        | some te =>
          if pid = te.pid then
            match getlast cfg s with
            | none => none
            | some r => some (pid, r.2)
          else removeLoop cfg pid s s.mem.length s.q.head

/-! ## Observing the chain -/

/-- Walk from `curr` along `next`, collecting address and pid of every entry. -/
def walkNext (mem : Heap) : Nat → Option Nat → Option (List (Nat × pid32))
  | _, none => some []
  | 0, some _ => none
  | fuel + 1, some c =>
    match load mem c with
    | none => none
    | some ce =>
      match walkNext mem fuel ce.next with
      | none => none
      | some l => some ((c, ce.pid) :: l)

/-- Walk from `curr` along `prev`, collecting address and pid of every entry. -/
def walkPrev (mem : Heap) : Nat → Option Nat → Option (List (Nat × pid32))
  | _, none => some []
  | 0, some _ => none
  | fuel + 1, some c =>
    match load mem c with
    | none => none
    | some ce =>
      match walkPrev mem fuel ce.prev with
      | none => none
      | some l => some ((c, ce.pid) :: l)

/-- The entries linked into the queue, from head to tail. -/
def chain (s : State) : Option (List (Nat × pid32)) :=
  walkNext s.mem s.mem.length s.q.head

/-- The pids held by the queue, from head to tail. -/
def pids (s : State) : Option (List pid32) :=
  (chain s).map (List.map Prod.snd)

/-- A sample configuration: eight processes, two different sentinel values,
and a validator that rejects the pids outside `0 .. NPROC-1`. -/
def sampleCfg : Config :=
  { NPROC := 8, SYSERR := -1, EMPTY := -2, isbadpid := fun p => decide (p < 0 ∨ p ≥ 8) }

/-- Enqueue the pids of a list one after the other, collecting the results. -/
def enqueueAll (cfg : Config) : List pid32 → State → Option (List pid32 × State)
  | [], s => some ([], s)
  | p :: ps, s =>
    match enqueue cfg p s with
    | none => none
    | some r =>
      match enqueueAll cfg ps r.2 with
      | none => none
      | some rs => some (r.1 :: rs.1, rs.2)

/-- Call `dequeue` the given number of times, collecting the results. -/
def dequeueN (cfg : Config) : Nat → State → Option (List pid32 × State)
  | 0, s => some ([], s)
  | n + 1, s =>
    match dequeue cfg s with
    | none => none
    | some r =>
      match dequeueN cfg n r.2 with
      | none => none
      | some rs => some (r.1 :: rs.1, rs.2)

/-! ## The invariants of the data model -/

/-- Size/emptiness invariant: `size` counts the entries on the walk from
`head` along `next`, and `size == 0` iff `head` is `NULL` iff `tail` is `NULL`. -/
def SizeInv (s : State) : Prop :=
  ∃ l, chain s = some l ∧ s.q.size = (l.length : Int) ∧
    (s.q.size = 0 ↔ s.q.head = none) ∧ (s.q.head = none ↔ s.q.tail = none)

/-- Link invariant: the walk from `head` is finite and meets no entry twice,
it ends at `tail`, the head has no predecessor and the tail no successor,
`next` and `prev` are inverse to each other on linked entries, and the walk
from `tail` along `prev` is the reverse of the walk from `head`. -/
def LinkInv (s : State) : Prop :=
  ∃ l, chain s = some l ∧ (l.map Prod.fst).Nodup ∧
    (l.getLast?).map Prod.fst = s.q.tail ∧
    (∀ e, deref s.mem s.q.head = some e → e.prev = none) ∧
    (∀ e, deref s.mem s.q.tail = some e → e.next = none) ∧
    (∀ x ∈ l, ∀ e b, load s.mem x.1 = some e → e.next = some b →
      ∃ eb, load s.mem b = some eb ∧ eb.prev = some x.1) ∧
    (∀ x ∈ l, ∀ e b, load s.mem x.1 = some e → e.prev = some b →
      ∃ eb, load s.mem b = some eb ∧ eb.next = some x.1) ∧
    walkPrev s.mem s.mem.length s.q.tail = some l.reverse

/-- A well-formed queue satisfies the size/emptiness and the link invariant. -/
def WellFormed (s : State) : Prop := SizeInv s ∧ LinkInv s

/-! ## The abstraction used in the proofs -/

/-- Address of the first entry of `l`, or `d` when `l` is empty. -/
def hdOr : List (Nat × pid32) → Option Nat → Option Nat
  | [], d => d
  | x :: _, _ => some x.1

/-- Address of the last entry of `l`, or `d` when `l` is empty. -/
def lastOr : List (Nat × pid32) → Option Nat → Option Nat
  | [], d => d
  | x :: l, _ => lastOr l (some x.1)

/-- The cells of `l` form a doubly linked segment of the heap: the first has
predecessor `p`, each is linked to its neighbours, the last has successor `n`. -/
def Seg (mem : Heap) : Option Nat → List (Nat × pid32) → Option Nat → Prop
  | _, [], _ => True
  | p, x :: l, n =>
    load mem x.1 = some { pid := x.2, prev := p, next := hdOr l n } ∧ Seg mem (some x.1) l n

/-- The state `s` holds exactly the chain `l`, from head to tail. -/
def Rep (s : State) (l : List (Nat × pid32)) : Prop :=
  (l.map Prod.fst).Nodup ∧ Seg s.mem none l none ∧
    s.q.head = hdOr l none ∧ s.q.tail = lastOr l none ∧ s.q.size = (l.length : Int)

/-! ## Calls and reachable states -/

/-- A call of one of the operations that take or return entries. -/
inductive Call where
  | enqueue (pid : pid32)
  | dequeue
  | getfirst
  | getlast
  | remove (pid : pid32)
  | getbypid (pid : pid32)
deriving DecidableEq, Repr

/-- What a call returns: a `pid32` value or a `struct qentry *`. -/
inductive Ret where
  | val (v : pid32)
  | ptr (p : Option Nat)
deriving DecidableEq, Repr

/-- Run one call on a state. -/
def step (cfg : Config) (c : Call) (s : State) : Option (Ret × State) :=
  match c with
  | Call.enqueue pid => (enqueue cfg pid s).map (fun r => (Ret.val r.1, r.2))
  | Call.dequeue => (dequeue cfg s).map (fun r => (Ret.val r.1, r.2))
  | Call.getfirst => (getfirst cfg s).map (fun r => (Ret.val r.1, r.2))
  | Call.getlast => (getlast cfg s).map (fun r => (Ret.val r.1, r.2))
  | Call.remove pid => (remove cfg pid s).map (fun r => (Ret.val r.1, r.2))
  | Call.getbypid pid => (getbypid cfg pid s).map (fun r => (Ret.ptr r.1, r.2))

/-- The states a queue can be in: the one `newqueue` creates (on any heap),
and every state a call of an operation produces from such a state. -/
inductive Reachable (cfg : Config) : State → Prop where
  | init (mem : Heap) : Reachable cfg (newqueue mem)
  | call {s s2 : State} (c : Call) (r : Ret) :
      Reachable cfg s → step cfg c s = some (r, s2) → Reachable cfg s2

/-- The pid sequence `remove(pid, ·)` leaves behind when `pid` is carried:
the head is taken if it carries `pid`, else the tail if it carries `pid`,
else the first entry of the scan that carries `pid`. -/
def removedPids (pid : pid32) (ps : List pid32) : List pid32 :=
  if ps.head? = some pid then ps.tail
  else if ps.getLast? = some pid then ps.dropLast
  else ps.erase pid

/-- The state after `enqueue(1)`, `enqueue(2)`, `enqueue(3)` on a new queue. -/
def s123 : State :=
  { mem := [some { pid := 1, prev := none, next := some 1 },
            some { pid := 2, prev := some 0, next := some 2 },
            some { pid := 3, prev := some 1, next := none }],
    q := { head := some 0, tail := some 2, size := 3 } }

/-- A full queue for `sampleCfg`: the state after enqueueing `0, 1, ..., 7`. -/
def sFull : State :=
  { mem := [some { pid := 0, prev := none, next := some 1 },
            some { pid := 1, prev := some 0, next := some 2 },
            some { pid := 2, prev := some 1, next := some 3 },
            some { pid := 3, prev := some 2, next := some 4 },
            some { pid := 4, prev := some 3, next := some 5 },
            some { pid := 5, prev := some 4, next := some 6 },
            some { pid := 6, prev := some 5, next := some 7 },
            some { pid := 7, prev := some 6, next := none }],
    q := { head := some 0, tail := some 7, size := 8 } }

/-- The value a call returns, when it returns a `pid32`. -/
def Ret.value : Ret → Option pid32
  | Ret.val v => some v
  | Ret.ptr _ => none

/-- The effect of a call on the sequence of pids held by a well-formed queue,
with the `pid32` value the call returns. -/
def absStep (cfg : Config) (c : Call) (ps : List pid32) : Option pid32 × List pid32 :=
  match c with
  | Call.enqueue pid =>
    if decide (cfg.NPROC ≤ ps.length) || cfg.isbadpid pid then (some cfg.SYSERR, ps)
    else (some pid, ps ++ [pid])
  | Call.dequeue =>
    match ps with
    | [] => (some cfg.EMPTY, ps)
    | x :: t => (some x, t)
  | Call.getfirst =>
    match ps with
    | [] => (some cfg.EMPTY, ps)
    | x :: t => (some x, t)
  | Call.getlast =>
    match ps.getLast? with
    | none => (some cfg.EMPTY, ps)
    | some x => (some x, ps.dropLast)
  | Call.remove pid =>
    if ps = [] then (some cfg.EMPTY, ps)
    else if cfg.isbadpid pid then (some cfg.SYSERR, ps)
    else if pid ∈ ps then (some pid, removedPids pid ps)
    else (some cfg.SYSERR, ps)
  | Call.getbypid _ => (none, ps)

/-- Run a sequence of calls; the log holds, for every call, the call, the
state it ran in and what it returned. -/
def run (cfg : Config) : List Call → State → Option (List (Call × State × Ret) × State)
  | [], s => some ([], s)
  | c :: cs, s =>
    match step cfg c s with
    | none => none
    | some r =>
      match run cfg cs r.2 with
      | none => none
      | some t => some ((c, s, r.1) :: t.1, t.2)

/-- The call is an `enqueue` that succeeds: its guard `isfull(q) ||
isbadpid(pid)` is false, so it links an entry and leaves by `return pid`. -/
def enqueueSucceeds (cfg : Config) (c : Call) (s : State) : Bool :=
  match c with
  | Call.enqueue pid => !(isfull cfg s.q || cfg.isbadpid pid)
  | _ => false

/-- The call is a removal that succeeds: `dequeue`, `getfirst` and `getlast`
pass their `isempty` guard; `remove` passes both guards and some entry
carries the pid, so one of its three branches unlinks it and returns it. -/
def removalSucceeds (cfg : Config) (c : Call) (s : State) : Bool :=
  match c with
  | Call.dequeue => !isempty s.q
  | Call.getfirst => !isempty s.q
  | Call.getlast => !isempty s.q
  | Call.remove pid =>
    !isempty s.q && !cfg.isbadpid pid &&
      (match pids s with
       | none => false
       | some ps => decide (pid ∈ ps))
  | _ => false

/-- The number of successful `enqueue` calls of a log. -/
def enqueues (cfg : Config) (log : List (Call × State × Ret)) : Nat :=
  (log.filter (fun e => enqueueSucceeds cfg e.1 e.2.1)).length

/-- The number of successful removal calls of a log. -/
def removals (cfg : Config) (log : List (Call × State × Ret)) : Nat :=
  (log.filter (fun e => removalSucceeds cfg e.1 e.2.1)).length

/-- What the caller of `enqueue` sees of a success: the value returned is the
pid passed, and it is not the error value `SYSERR`. -/
def returnedItsPid (cfg : Config) (c : Call) (r : Ret) : Bool :=
  match c, r with
  | Call.enqueue pid, Ret.val v => v == pid && v != cfg.SYSERR
  | _, _ => false

/-- What the caller of a removal sees of a success: the value returned is
neither `EMPTY` nor `SYSERR`. -/
def returnedRemovedPid (cfg : Config) (c : Call) (r : Ret) : Bool :=
  match c, r with
  | Call.dequeue, Ret.val v => v != cfg.EMPTY && v != cfg.SYSERR
  | Call.getfirst, Ret.val v => v != cfg.EMPTY && v != cfg.SYSERR
  | Call.getlast, Ret.val v => v != cfg.EMPTY && v != cfg.SYSERR
  | Call.remove _, Ret.val v => v != cfg.EMPTY && v != cfg.SYSERR
  | _, _ => false

/-- The number of `enqueue` calls of a log that returned their pid. -/
def observedEnqueues (cfg : Config) (log : List (Call × State × Ret)) : Nat :=
  (log.filter (fun e => returnedItsPid cfg e.1 e.2.2)).length

/-- The number of removal calls of a log that returned a pid. -/
def observedRemovals (cfg : Config) (log : List (Call × State × Ret)) : Nat :=
  (log.filter (fun e => returnedRemovedPid cfg e.1 e.2.2)).length

/-- The states reached from `newqueue` by calls in which `enqueue` is never
given a pid that an entry of the queue carries at the time of the call. -/
inductive ReachableFresh (cfg : Config) : State → Prop where
  | init (mem : Heap) : ReachableFresh cfg (newqueue mem)
  | call {s s2 : State} (c : Call) (r : Ret) :
      ReachableFresh cfg s →
      (∀ pid ps, c = Call.enqueue pid → pids s = some ps → pid ∉ ps) →
      step cfg c s = some (r, s2) → ReachableFresh cfg s2

/-- The state after `enqueue(1)`, `enqueue(1)` on a new queue. -/
def sDup : State :=
  { mem := [some { pid := 1, prev := none, next := some 1 },
            some { pid := 1, prev := some 0, next := none }],
    q := { head := some 0, tail := some 1, size := 2 } }

/-- The state after `enqueue` of `1, 2, 3, 2` on a new queue. -/
def s1232 : State :=
  { mem := [some { pid := 1, prev := none, next := some 1 },
            some { pid := 2, prev := some 0, next := some 2 },
            some { pid := 3, prev := some 1, next := some 3 },
            some { pid := 2, prev := some 2, next := none }],
    q := { head := some 0, tail := some 3, size := 4 } }

/-- The loop of `printqueue`: the text its `kprintf` calls emit from `curr` on. -/
def printqueueLoop (mem : Heap) : Nat → Option Nat → Option String
  | _, none => some ""
  | 0, some _ => none
  | fuel + 1, some c =>
    match load mem c with
    | none => none
    | some ce =>
      match printqueueLoop mem fuel ce.next with
      | none => none
      | some rest =>
        if ce.next = none then some ("(pid=" ++ toString ce.pid ++ ")]\n" ++ rest)
        else some ("(pid=" ++ toString ce.pid ++ "), " ++ rest)

/-- The function `printqueue`: the text it prints and the state it leaves. -/
def printqueue (s : State) : Option (String × State) :=
  match printqueueLoop s.mem s.mem.length s.q.head with
  | none => none
  | some out => some ("[" ++ out, s)

/-- The entries of the debug format, separated by `", "`. -/
def renderEntries : List pid32 → String
  | [] => ""
  | [p] => "(pid=" ++ toString p ++ ")"
  | p :: q :: ps => "(pid=" ++ toString p ++ "), " ++ renderEntries (q :: ps)

/-- The debug format of the specification: the entries between one opening
and one closing bracket, `[]` for no entry. -/
def rendering (ps : List pid32) : String := "[" ++ renderEntries ps ++ "]"

theorem load_nil (a : Nat) : load [] a = none := by
  cases a <;> rfl

theorem load_write (m : Heap) (a b : Nat) (v : Option qentry) :
    load (write m a v) b = if b = a then v else load m b := by
  induction m generalizing a b with
  | nil =>
    induction a generalizing b with
    | zero => cases b <;> simp [write, load, load_nil]
    | succ a ih =>
      cases b with
      | zero => simp [write, load]
      | succ b => simp [write, load, ih, load_nil]
  | cons c m ih =>
    cases a with
    | zero => cases b <;> simp [write, load]
    | succ a =>
      cases b with
      | zero => simp [write, load]
      | succ b => simp [write, load, ih]

theorem load_malloc (m : Heap) : load m (malloc m) = none := by
  induction m with
  | nil => rfl
  | cons c m ih =>
    cases c with
    | none => rfl
    | some e => simpa [malloc, load] using ih

theorem load_lt {m : Heap} {a : Nat} {e : qentry} (h : load m a = some e) : a < m.length := by
  induction m generalizing a with
  | nil => simp [load_nil] at h
  | cons c m ih =>
    cases a with
    | zero => simp
    | succ a => simpa using ih (by simpa [load] using h)

theorem length_le_of_nodup_lt {l : List Nat} {n : Nat} (hn : l.Nodup) (hl : ∀ a ∈ l, a < n) :
    l.length ≤ n := by
  have h1 : l.toFinset ⊆ Finset.range n := by
    intro a ha
    simpa using hl a (by simpa using ha)
  have h2 := Finset.card_le_card h1
  rwa [List.toFinset_card_of_nodup hn, Finset.card_range] at h2

/-! ## Segment lemmas -/

@[simp] theorem hdOr_nil (d : Option Nat) : hdOr [] d = d := rfl

@[simp] theorem hdOr_cons (x : Nat × pid32) (l : List (Nat × pid32)) (d : Option Nat) :
    hdOr (x :: l) d = some x.1 := rfl

@[simp] theorem lastOr_nil (d : Option Nat) : lastOr [] d = d := rfl

@[simp] theorem lastOr_cons (x : Nat × pid32) (l : List (Nat × pid32)) (d : Option Nat) :
    lastOr (x :: l) d = lastOr l (some x.1) := rfl

theorem hdOr_append (l1 l2 : List (Nat × pid32)) (d : Option Nat) :
    hdOr (l1 ++ l2) d = hdOr l1 (hdOr l2 d) := by
  cases l1 <;> rfl

theorem lastOr_append (l1 l2 : List (Nat × pid32)) (d : Option Nat) :
    lastOr (l1 ++ l2) d = lastOr l2 (lastOr l1 d) := by
  induction l1 generalizing d with
  | nil => rfl
  | cons x l ih => simp [lastOr, ih]

theorem seg_append (mem : Heap) (p n : Option Nat) (l1 l2 : List (Nat × pid32)) :
    Seg mem p (l1 ++ l2) n ↔ Seg mem p l1 (hdOr l2 n) ∧ Seg mem (lastOr l1 p) l2 n := by
  induction l1 generalizing p with
  | nil => simp [Seg, lastOr]
  | cons x l ih => simp [Seg, lastOr, ih, hdOr_append, and_assoc]

theorem seg_frame {m m2 : Heap} {p n : Option Nat} {l : List (Nat × pid32)}
    (hf : ∀ x ∈ l, load m2 x.1 = load m x.1) (h : Seg m p l n) : Seg m2 p l n := by
  induction l generalizing p with
  | nil => trivial
  | cons x l ih =>
    refine ⟨?_, ih (fun y hy => hf y (List.mem_cons_of_mem _ hy)) h.2⟩
    rw [hf x (List.mem_cons_self _ _)]
    exact h.1

theorem seg_load {m : Heap} {p n : Option Nat} {l : List (Nat × pid32)} (h : Seg m p l n) :
    ∀ x ∈ l, ∃ e, load m x.1 = some e ∧ e.pid = x.2 := by
  induction l generalizing p with
  | nil => simp
  | cons x l ih =>
    intro y hy
    rcases List.mem_cons.1 hy with rfl | hy
    · exact ⟨_, h.1, rfl⟩
    · exact ih h.2 y hy

theorem seg_length_le {m : Heap} {p n : Option Nat} {l : List (Nat × pid32)}
    (hn : (l.map Prod.fst).Nodup) (h : Seg m p l n) : l.length ≤ m.length := by
  have := length_le_of_nodup_lt hn (n := m.length) (by
    intro a ha
    obtain ⟨x, hx, rfl⟩ := List.mem_map.1 ha
    obtain ⟨e, he, _⟩ := seg_load h x hx
    exact load_lt he)
  simpa using this

theorem snoc_cases (l : List (Nat × pid32)) : l = [] ∨ ∃ l0 x, l = l0 ++ [x] := by
  rcases l.eq_nil_or_concat with h | ⟨l0, x, h⟩
  · exact Or.inl h
  · exact Or.inr ⟨l0, x, by simpa using h⟩

theorem seg_ne_of_load_none {m : Heap} {p n : Option Nat} {l : List (Nat × pid32)} {a : Nat}
    (h : Seg m p l n) (ha : load m a = none) : ∀ x ∈ l, x.1 ≠ a := by
  intro x hx hxa
  obtain ⟨e, he, _⟩ := seg_load h x hx
  rw [hxa, ha] at he
  exact Option.noConfusion he

/-! ## The operations on the abstraction -/

theorem nodup_snoc_ne {l0 : List (Nat × pid32)} {x : Nat × pid32}
    (h : (List.map Prod.fst (l0 ++ [x])).Nodup) : ∀ y ∈ l0, y.1 ≠ x.1 := by
  intro y hy hyx
  rw [List.map_append, List.nodup_append] at h
  exact h.2.2 (List.mem_map_of_mem _ hy) (by simp [hyx])

theorem enqueue_rep {cfg : Config} {s : State} {l : List (Nat × pid32)} (pid : pid32)
    (hr : Rep s l) (hfull : isfull cfg s.q = false) (hbad : cfg.isbadpid pid = false) :
    ∃ s2, enqueue cfg pid s = some (pid, s2) ∧ Rep s2 (l ++ [(malloc s.mem, pid)]) := by
  obtain ⟨hnd, hseg, hh, ht, hsz⟩ := hr
  have hfresh : ∀ x ∈ l, x.1 ≠ malloc s.mem := seg_ne_of_load_none hseg (load_malloc _)
  rcases snoc_cases l with rfl | ⟨l0, x, rfl⟩
  · have he : isempty s.q = true := by simp [isempty, hsz]
    simp only [enqueue, hfull, hbad, he, Bool.or_self, Bool.false_eq_true, if_false, if_true,
      Option.some.injEq, Prod.mk.injEq, true_and, exists_eq_left']
    simp [Rep, Seg, load_write, ht, hsz]
  · have he : isempty s.q = false := by
      simp [isempty, hsz]; omega
    have hx : x.1 ≠ malloc s.mem := hfresh x (by simp)
    rw [seg_append] at hseg
    obtain ⟨hs0, hsx, -⟩ := hseg
    simp only [hdOr_cons, hdOr_nil] at hsx hs0
    have htl : s.q.tail = some x.1 := by simp [ht, lastOr_append]
    have hnd2 : ∀ y ∈ l0, y.1 ≠ x.1 := nodup_snoc_ne hnd
    simp only [enqueue, hfull, hbad, he, Bool.or_self, Bool.false_eq_true, if_false, htl, setNext,
      load_write, hx, hsx, Option.some.injEq, Prod.mk.injEq, true_and, exists_eq_left']
    refine ⟨?_, ?_, ?_, ?_, ?_⟩
    · simp only [List.map_append, List.map_cons, List.map_nil]
      rw [List.nodup_append]
      refine ⟨by simpa using hnd, by simp, ?_⟩
      intro a ha hb
      simp at hb
      subst hb
      simp at ha
      rcases ha with ⟨b, hab⟩ | hax
      · exact hfresh (malloc s.mem, b) (by simp [hab]) rfl
      · exact hx hax.symm
    · rw [List.append_assoc, seg_append]
      refine ⟨seg_frame (fun y hy => ?_) hs0, ?_⟩
      · simp [load_write, hfresh y (by simp [hy]), hnd2 y hy]
      · simp [Seg, load_write, hx, Ne.symm hx, htl, hsx]
    · simp [hh, hdOr_append]
    · simp [lastOr_append]
    · simp only [hsz, List.length_append, List.length_cons, List.length_nil]
      push_cast
      ring

theorem dequeue_rep (cfg : Config) {s : State} {x : Nat × pid32} {l : List (Nat × pid32)}
    (hr : Rep s (x :: l)) : ∃ s2, dequeue cfg s = some (x.2, s2) ∧ Rep s2 l := by
  obtain ⟨hnd, hseg, hh, ht, hsz⟩ := hr
  obtain ⟨hx, hl⟩ := hseg
  simp only [hdOr_cons] at hh
  cases l with
  | nil =>
    have hs1 : s.q.size = 1 := by simp [hsz]
    simp only [hdOr_nil] at hx
    simp [dequeue, isempty, hs1, hh, deref, hx, free, Rep, Seg]
  | cons y l =>
    have hs0 : ¬ s.q.size = 0 := by
      simp [hsz]; omega
    have hs1 : ¬ s.q.size - 1 = 0 := by
      simp [hsz]; omega
    obtain ⟨hy, hl2⟩ := hl
    simp only [List.map_cons, List.nodup_cons, List.mem_cons, not_or] at hnd
    obtain ⟨⟨hxy, hxl⟩, hyl, hnd2⟩ := hnd
    simp only [hdOr_cons] at hx
    simp only [dequeue, isempty, beq_iff_eq, hs0, hs1, hh, deref, hx, hy, free, setPrev,
      load_write, hxy, if_false, Option.some.injEq, Prod.mk.injEq, true_and, exists_eq_left']
    refine ⟨?_, ⟨?_, seg_frame (fun z hz => ?_) hl2⟩, ?_, ?_, ?_⟩
    · simp only [List.map_cons, List.nodup_cons]
      exact ⟨hyl, hnd2⟩
    · simp [load_write, Ne.symm hxy]
    · have h1 : z.1 ≠ x.1 := fun h => hxl (h ▸ List.mem_map_of_mem _ hz)
      have h2 : z.1 ≠ y.1 := fun h => hyl (h ▸ List.mem_map_of_mem _ hz)
      simp [load_write, h1, h2]
    · simp
    · simp [ht]
    · simp only [hsz, List.length_cons]
      push_cast
      ring

theorem getlast_rep (cfg : Config) {s : State} {x : Nat × pid32} {l : List (Nat × pid32)}
    (hr : Rep s (l ++ [x])) : ∃ s2, getlast cfg s = some (x.2, s2) ∧ Rep s2 l := by
  obtain ⟨hnd, hseg, hh, ht, hsz⟩ := hr
  rw [seg_append] at hseg
  obtain ⟨hl, hx, -⟩ := hseg
  simp only [lastOr_append, lastOr_cons, lastOr_nil] at ht
  simp only [hdOr_cons, hdOr_nil] at hl hx
  have hne := nodup_snoc_ne hnd
  rcases snoc_cases l with rfl | ⟨l0, y, rfl⟩
  · have hs1 : s.q.size = 1 := by simp [hsz]
    simp only [lastOr_nil] at hx
    simp [getlast, isempty, hs1, ht, deref, hx, free, Rep, Seg]
  · have hs0 : ¬ s.q.size = 0 := by
      simp [hsz]; omega
    have hs1 : ¬ s.q.size - 1 = 0 := by
      simp [hsz]; omega
    rw [seg_append] at hl
    obtain ⟨hl0, hy, -⟩ := hl
    simp only [hdOr_cons, hdOr_nil] at hl0 hy
    simp only [lastOr_append, lastOr_cons, lastOr_nil] at hx
    have hyx : y.1 ≠ x.1 := hne y (by simp)
    have hnd1 : (List.map Prod.fst (l0 ++ [y])).Nodup := by
      rw [List.map_append, List.nodup_append] at hnd
      exact hnd.1
    have hne1 := nodup_snoc_ne hnd1
    simp only [getlast, isempty, beq_iff_eq, hs0, hs1, ht, deref, hx, hy, free, setNext,
      load_write, Ne.symm hyx, if_false, Option.some.injEq, Prod.mk.injEq, true_and,
      exists_eq_left']
    refine ⟨hnd1, ?_, ?_, by simp [lastOr_append], ?_⟩
    · rw [seg_append]
      refine ⟨seg_frame (fun z hz => ?_) hl0, ?_⟩
      · simp [load_write, hne z (by simp [hz]), hne1 z hz]
      · simp [Seg, load_write, hyx]
    · simpa [hdOr_append] using hh
    · simp only [hsz, List.length_append, List.length_cons, List.length_nil]
      push_cast
      ring

theorem nodup_mid_ne {a b : List (Nat × pid32)} {x : Nat × pid32}
    (h : (List.map Prod.fst (a ++ x :: b)).Nodup) :
    (∀ y ∈ a, y.1 ≠ x.1) ∧ (∀ y ∈ b, y.1 ≠ x.1) := by
  rw [List.map_append, List.map_cons, List.nodup_append, List.nodup_cons] at h
  obtain ⟨-, ⟨hx, -⟩, hd⟩ := h
  constructor
  · intro y hy hyx
    exact hd (List.mem_map_of_mem _ hy) (by simp [hyx])
  · intro y hy hyx
    exact hx (hyx ▸ List.mem_map_of_mem _ hy)

theorem nodup_drop_mid {a b : List (Nat × pid32)} {x : Nat × pid32}
    (h : (List.map Prod.fst (a ++ x :: b)).Nodup) : (List.map Prod.fst (a ++ b)).Nodup := by
  refine h.sublist ?_
  exact ((List.sublist_cons_self x b).append_left a).map _

theorem removeLoop_skip (cfg : Config) (pid : pid32) (s : State) {p nx : Option Nat}
    {k : List (Nat × pid32)} (f : Nat) (hk : Seg s.mem p k nx) (hne : ∀ x ∈ k, x.2 ≠ pid) :
    removeLoop cfg pid s (k.length + f) (hdOr k nx) = removeLoop cfg pid s f nx := by
  induction k generalizing p with
  | nil => simp
  | cons x k ih =>
    have hx : x.2 ≠ pid := hne x (List.mem_cons_self _ _)
    rw [List.length_cons, Nat.add_right_comm, hdOr_cons]
    simp only [removeLoop, hk.1, hx, if_false]
    exact ih hk.2 (fun y hy => hne y (List.mem_cons_of_mem _ hy))

theorem removeLoop_hit (cfg : Config) {s : State} {l1 l2 : List (Nat × pid32)}
    {u c d : Nat × pid32} (f : Nat) (hr : Rep s (l1 ++ u :: c :: d :: l2)) :
    ∃ s2, removeLoop cfg c.2 s (f + 1) (some c.1) = some (c.2, s2) ∧
      Rep s2 (l1 ++ u :: d :: l2) := by
  obtain ⟨hnd, hseg, hh, ht, hsz⟩ := hr
  have hndu := nodup_mid_ne hnd
  have hndc := nodup_mid_ne (a := l1 ++ [u]) (x := c) (b := d :: l2) (by simpa using hnd)
  have hndd := nodup_mid_ne (a := l1 ++ [u, c]) (x := d) (b := l2) (by simpa using hnd)
  have huc : u.1 ≠ c.1 := hndc.1 u (by simp)
  have hud : u.1 ≠ d.1 := hndd.1 u (by simp)
  have hcd : c.1 ≠ d.1 := hndd.1 c (by simp)
  rw [seg_append] at hseg
  obtain ⟨hs1, hu, hc, hd, hs2⟩ := hseg
  simp only [hdOr_cons] at hs1 hu hc
  simp only [removeLoop, hc, hu, hd, if_true, setNext, setPrev, free, load_write, Ne.symm huc,
    Ne.symm hud, Ne.symm hcd, hcd, if_false, Option.some.injEq, Prod.mk.injEq, true_and,
    exists_eq_left']
  refine ⟨?_, ?_, ?_, ?_, ?_⟩
  · have := nodup_drop_mid (a := l1 ++ [u]) (x := c) (b := d :: l2) (by simpa using hnd)
    simpa using this
  · rw [seg_append]
    refine ⟨seg_frame (fun z hz => ?_) hs1, ?_, ?_, seg_frame (fun z hz => ?_) hs2⟩
    · simp [load_write, hndu.1 z hz, hndc.1 z (by simp [hz]), hndd.1 z (by simp [hz])]
    · simp [load_write, huc, hud]
    · simp [load_write, Ne.symm hcd]
    · simp [load_write, hndu.2 z (by simp [hz]), hndc.2 z (by simp [hz]), hndd.2 z hz]
  · simpa [hdOr_append] using hh
  · simpa [lastOr_append] using ht
  · simp only [hsz, List.length_append, List.length_cons]
    push_cast
    ring

theorem rep_head_load {s : State} {x : Nat × pid32} {r : List (Nat × pid32)}
    (hr : Rep s (x :: r)) :
    deref s.mem s.q.head = some { pid := x.2, prev := none, next := hdOr r none } := by
  obtain ⟨-, hseg, hh, -, -⟩ := hr
  simp [hh, deref, hseg.1]

theorem rep_tail_load {s : State} {x : Nat × pid32} {r : List (Nat × pid32)}
    (hr : Rep s (r ++ [x])) :
    deref s.mem s.q.tail = some { pid := x.2, prev := lastOr r none, next := none } := by
  obtain ⟨-, hseg, -, ht, -⟩ := hr
  rw [seg_append] at hseg
  simp [ht, lastOr_append, deref, hseg.2.1]

theorem rep_isempty {s : State} {l : List (Nat × pid32)} (hr : Rep s l) :
    isempty s.q = decide (l = []) := by
  obtain ⟨-, -, -, -, hsz⟩ := hr
  cases l with
  | nil => simp [isempty, hsz]
  | cons x r =>
    simp [isempty, hsz]
    omega

theorem remove_head {cfg : Config} {s : State} {x : Nat × pid32} {r : List (Nat × pid32)}
    {pid : pid32} (hr : Rep s (x :: r)) (hb : cfg.isbadpid pid = false) (hp : x.2 = pid) :
    ∃ s2, remove cfg pid s = some (pid, s2) ∧ Rep s2 r := by
  obtain ⟨s2, hd, hr2⟩ := dequeue_rep cfg hr
  refine ⟨s2, ?_, hr2⟩
  simp [remove, getfirst, rep_isempty hr, hb, rep_head_load hr, hp, hd]

theorem remove_last {cfg : Config} {s : State} {x y : Nat × pid32} {r : List (Nat × pid32)}
    {pid : pid32} (hr : Rep s (y :: r ++ [x])) (hb : cfg.isbadpid pid = false)
    (hy : y.2 ≠ pid) (hp : x.2 = pid) :
    ∃ s2, remove cfg pid s = some (pid, s2) ∧ Rep s2 (y :: r) := by
  obtain ⟨s2, hd, hr2⟩ := getlast_rep cfg hr
  refine ⟨s2, ?_, hr2⟩
  have h1 := rep_head_load (x := y) (r := r ++ [x]) (by simpa using hr)
  have h2 := rep_tail_load hr
  have h3 := rep_isempty hr
  simp only [List.cons_append, reduceCtorEq, decide_False] at h3
  simp [remove, h3, hb, h1, h2, Ne.symm hy, hp, hd]

theorem remove_absent {cfg : Config} {s : State} {l : List (Nat × pid32)} {pid : pid32}
    (hr : Rep s l) (hl : l ≠ []) (hb : cfg.isbadpid pid = false) (hp : ∀ x ∈ l, x.2 ≠ pid) :
    remove cfg pid s = some (cfg.SYSERR, s) := by
  have h3 := rep_isempty hr
  simp only [hl, decide_False] at h3
  have hlen := seg_length_le hr.1 hr.2.1
  obtain ⟨f, hf⟩ := Nat.exists_eq_add_of_le hlen
  have hscan := removeLoop_skip cfg pid s f hr.2.1 hp
  rw [← hf, ← hr.2.2.1] at hscan
  cases l with
  | nil => exact absurd rfl hl
  | cons y r =>
    have h1 := rep_head_load hr
    have hy : ¬ pid = y.2 := fun h => hp y (List.mem_cons_self _ _) h.symm
    rcases snoc_cases (y :: r) with h | ⟨r0, z, h⟩
    · exact absurd h (by simp)
    · rw [h] at hr
      have h2 := rep_tail_load hr
      have hz : ¬ pid = z.2 := fun e => hp z (by rw [h]; simp) e.symm
      simp [remove, h3, hb, h1, h2, hy, hz, hscan, removeLoop]

theorem remove_mid {cfg : Config} {s : State} {l1 l2 : List (Nat × pid32)} {y c z : Nat × pid32}
    {pid : pid32} (hr : Rep s (y :: l1 ++ c :: (l2 ++ [z]))) (hb : cfg.isbadpid pid = false)
    (hy : y.2 ≠ pid) (h1 : ∀ x ∈ l1, x.2 ≠ pid) (hc : c.2 = pid) (hz : z.2 ≠ pid) :
    ∃ s2, remove cfg pid s = some (pid, s2) ∧ Rep s2 (y :: l1 ++ (l2 ++ [z])) := by
  have h3 := rep_isempty hr
  simp only [List.cons_append, reduceCtorEq, decide_False] at h3
  have hlen := seg_length_le hr.1 hr.2.1
  have hhd := rep_head_load (x := y) (r := l1 ++ c :: (l2 ++ [z])) (by simpa using hr)
  have htl := rep_tail_load (x := z) (r := y :: l1 ++ c :: l2) (by simpa using hr)
  have hseg := hr.2.1
  rw [seg_append] at hseg
  obtain ⟨f, hf⟩ : ∃ f, s.mem.length = (y :: l1).length + (f + 1) := by
    simp only [List.length_append, List.length_cons] at hlen
    exact ⟨s.mem.length - (y :: l1).length - 1, by simp only [List.length_cons]; omega⟩
  have hscan := removeLoop_skip cfg pid s (f + 1) hseg.1 (by
    intro x hx
    rcases List.mem_cons.1 hx with rfl | hx
    · exact hy
    · exact h1 x hx)
  rw [← hf] at hscan
  have hhead : s.q.head = hdOr (y :: l1) (hdOr (c :: (l2 ++ [z])) none) := by
    rw [hr.2.2.1, hdOr_append]
  rw [← hhead, hdOr_cons] at hscan
  obtain ⟨u, l0, hu⟩ : ∃ u l0, y :: l1 = l0 ++ [u] := by
    rcases snoc_cases (y :: l1) with h | ⟨l0, u, h⟩
    · exact absurd h (by simp)
    · exact ⟨u, l0, h⟩
  obtain ⟨d, l3, hd⟩ : ∃ d l3, l2 ++ [z] = d :: l3 := by
    cases l2 with
    | nil => exact ⟨z, [], rfl⟩
    | cons d l3 => exact ⟨d, l3 ++ [z], rfl⟩
  have hr2 : Rep s (l0 ++ u :: c :: d :: l3) := by
    have : l0 ++ u :: c :: d :: l3 = y :: l1 ++ c :: (l2 ++ [z]) := by
      rw [hd, hu]; simp
    rw [this]; exact hr
  obtain ⟨s2, hrm, hrep⟩ := removeLoop_hit cfg f hr2
  refine ⟨s2, ?_, ?_⟩
  · rw [hc] at hrm
    simp [remove, h3, hb, hhd, htl, Ne.symm hy, Ne.symm hz, hscan, hrm]
  · have : y :: l1 ++ (l2 ++ [z]) = l0 ++ u :: d :: l3 := by
      rw [hd, hu]; simp
    rw [this]; exact hrep

/-! ## The abstraction and the invariants -/

theorem walkNext_seg {m : Heap} {p : Option Nat} {l : List (Nat × pid32)} {fuel : Nat}
    (h : Seg m p l none) (hf : l.length ≤ fuel) : walkNext m fuel (hdOr l none) = some l := by
  induction l generalizing p fuel with
  | nil => cases fuel <;> rfl
  | cons x l ih =>
    cases fuel with
    | zero => simp at hf
    | succ fuel =>
      have := ih h.2 (by simpa using hf)
      simp [walkNext, h.1, this]

theorem walkPrev_seg {m : Heap} {n : Option Nat} {l : List (Nat × pid32)} {fuel : Nat}
    (h : Seg m none l n) (hf : l.length ≤ fuel) :
    walkPrev m fuel (lastOr l none) = some l.reverse := by
  induction l using List.reverseRecOn generalizing n fuel with
  | nil => cases fuel <;> rfl
  | append_singleton l x ih =>
    rw [seg_append] at h
    cases fuel with
    | zero => simp at hf
    | succ fuel =>
      have := ih h.1 (by simpa using hf)
      simp [walkPrev, lastOr_append, h.2.1, this]

theorem lastOr_eq_getLast (l : List (Nat × pid32)) :
    (l.getLast?).map Prod.fst = lastOr l none := by
  rcases snoc_cases l with rfl | ⟨l0, x, rfl⟩
  · rfl
  · simp [lastOr_append]

theorem rep_chain {s : State} {l : List (Nat × pid32)} (hr : Rep s l) : chain s = some l := by
  unfold chain
  rw [hr.2.2.1]
  exact walkNext_seg hr.2.1 (seg_length_le hr.1 hr.2.1)

theorem rep_sizeInv {s : State} {l : List (Nat × pid32)} (hr : Rep s l) : SizeInv s := by
  refine ⟨l, rep_chain hr, hr.2.2.2.2, ?_, ?_⟩
  · rw [hr.2.2.2.2, hr.2.2.1]
    cases l with
    | nil => simp
    | cons x r =>
      simp only [List.length_cons, hdOr_cons, reduceCtorEq, iff_false]
      push_cast
      omega
  · rw [hr.2.2.2.1, hr.2.2.1]
    rcases snoc_cases l with rfl | ⟨l0, x, rfl⟩
    · simp
    · cases l0 <;> simp [lastOr_append]

theorem seg_next_back {m : Heap} {l : List (Nat × pid32)} (hseg : Seg m none l none) :
    ∀ x ∈ l, ∀ e b, load m x.1 = some e → e.next = some b →
      ∃ eb, load m b = some eb ∧ eb.prev = some x.1 := by
  intro x hx e b he hb
  obtain ⟨l1, l2, rfl⟩ := List.append_of_mem hx
  rw [seg_append] at hseg
  obtain ⟨-, h1, h2⟩ := hseg
  rw [h1] at he
  cases l2 with
  | nil =>
    cases he
    simp at hb
  | cons y l2 =>
    cases he
    simp only [hdOr_cons, Option.some.injEq] at hb
    subst hb
    exact ⟨_, h2.1, rfl⟩

theorem seg_prev_forth {m : Heap} {l : List (Nat × pid32)} (hseg : Seg m none l none) :
    ∀ x ∈ l, ∀ e b, load m x.1 = some e → e.prev = some b →
      ∃ eb, load m b = some eb ∧ eb.next = some x.1 := by
  intro x hx e b he hb
  obtain ⟨l1, l2, rfl⟩ := List.append_of_mem hx
  rw [seg_append] at hseg
  obtain ⟨h0, h1, -⟩ := hseg
  rw [h1] at he
  rcases snoc_cases l1 with rfl | ⟨l0, y, rfl⟩
  · cases he
    simp at hb
  · cases he
    simp only [lastOr_append, lastOr_cons, lastOr_nil, Option.some.injEq] at hb
    subst hb
    rw [seg_append] at h0
    exact ⟨_, h0.2.1, rfl⟩

theorem rep_linkInv {s : State} {l : List (Nat × pid32)} (hr : Rep s l) : LinkInv s := by
  refine ⟨l, rep_chain hr, hr.1, ?_, ?_, ?_, seg_next_back hr.2.1, seg_prev_forth hr.2.1, ?_⟩
  · rw [hr.2.2.2.1]
    exact lastOr_eq_getLast l
  · intro e he
    cases l with
    | nil => simp [hr.2.2.1, deref] at he
    | cons x r =>
      rw [rep_head_load hr] at he
      cases he
      rfl
  · intro e he
    rcases snoc_cases l with rfl | ⟨l0, x, rfl⟩
    · simp [hr.2.2.2.1, deref] at he
    · rw [rep_tail_load hr] at he
      cases he
      rfl
  · rw [hr.2.2.2.1]
    exact walkPrev_seg hr.2.1 (seg_length_le hr.1 hr.2.1)

theorem seg_of_walk {m : Heap} {fuel : Nat} {cur p : Option Nat} {l : List (Nat × pid32)}
    (hw : walkNext m fuel cur = some l)
    (hb : ∀ x ∈ l, ∀ e b, load m x.1 = some e → e.next = some b →
      ∃ eb, load m b = some eb ∧ eb.prev = some x.1)
    (hp : ∀ e, deref m cur = some e → e.prev = p) : cur = hdOr l none ∧ Seg m p l none := by
  induction fuel generalizing cur p l with
  | zero =>
    cases cur with
    | none =>
      simp [walkNext] at hw
      subst hw
      exact ⟨rfl, trivial⟩
    | some c => simp [walkNext] at hw
  | succ fuel ih =>
    cases cur with
    | none =>
      simp [walkNext] at hw
      subst hw
      exact ⟨rfl, trivial⟩
    | some c =>
      simp only [walkNext] at hw
      cases hc : load m c with
      | none => simp [hc] at hw
      | some ce =>
        rw [hc] at hw
        cases hr : walkNext m fuel ce.next with
        | none => simp [hr] at hw
        | some r =>
          simp only [hr, Option.some.injEq] at hw
          subst hw
          have hprev : ce.prev = p := hp ce (by simpa [deref] using hc)
          obtain ⟨hn, hs⟩ := ih (p := some c) hr
            (fun x hx => hb x (List.mem_cons_of_mem _ hx))
            (by
              intro e he
              cases hnx : ce.next with
              | none => simp [hnx, deref] at he
              | some b =>
                obtain ⟨eb, h1, h2⟩ := hb (c, ce.pid) (List.mem_cons_self _ _) ce b hc hnx
                rw [hnx] at he
                simp only [deref] at he
                rw [h1] at he
                cases he
                exact h2)
          refine ⟨rfl, ?_, hs⟩
          rw [hc, ← hn, ← hprev]

theorem wellFormed_rep {s : State} (h : WellFormed s) : ∃ l, chain s = some l ∧ Rep s l := by
  obtain ⟨⟨l, hc, hsz, -, -⟩, ⟨l2, hc2, hnd, hlast, hhp, -, hnb, -, -⟩⟩ := h
  rw [hc] at hc2
  cases hc2
  obtain ⟨hh, hseg⟩ := seg_of_walk (p := none) hc hnb hhp
  exact ⟨l, hc, hnd, hseg, hh, by rw [← hlast, lastOr_eq_getLast], hsz⟩

theorem rep_wellFormed {s : State} {l : List (Nat × pid32)} (hr : Rep s l) : WellFormed s :=
  ⟨rep_sizeInv hr, rep_linkInv hr⟩

theorem wellFormed_chain {s : State} {l : List (Nat × pid32)} (h : WellFormed s)
    (hc : chain s = some l) : Rep s l := by
  obtain ⟨l2, hc2, hr⟩ := wellFormed_rep h
  rw [hc] at hc2
  cases hc2
  exact hr

theorem rep_pids {s : State} {l : List (Nat × pid32)} (hr : Rep s l) :
    pids s = some (l.map Prod.snd) := by
  simp [pids, rep_chain hr]

theorem wellFormed_pids {s : State} {ps : List pid32} (h : WellFormed s)
    (hp : pids s = some ps) : ∃ l, Rep s l ∧ l.map Prod.snd = ps := by
  obtain ⟨l, hc, hr⟩ := wellFormed_rep h
  refine ⟨l, hr, ?_⟩
  simpa [pids, hc] using hp

theorem rep_newqueue (mem : Heap) : Rep (newqueue mem) [] := by
  simp [Rep, Seg, newqueue]

theorem rep_s123 : Rep s123 [(0, 1), (1, 2), (2, 3)] := by
  simp [Rep, Seg, s123, load]

theorem rep_sFull :
    Rep sFull [(0, 0), (1, 1), (2, 2), (3, 3), (4, 4), (5, 5), (6, 6), (7, 7)] := by
  simp [Rep, Seg, sFull, load]

theorem s123_enqueued : enqueueAll sampleCfg [1, 2, 3] (newqueue []) = some ([1, 2, 3], s123) := by
  decide

theorem sFull_enqueued :
    enqueueAll sampleCfg [0, 1, 2, 3, 4, 5, 6, 7] (newqueue []) =
      some ([0, 1, 2, 3, 4, 5, 6, 7], sFull) := by
  decide

theorem rep_isfull {cfg : Config} {s : State} {l : List (Nat × pid32)} (hr : Rep s l) :
    isfull cfg s.q = decide (cfg.NPROC ≤ l.length) := by
  simp [isfull, hr.2.2.2.2]

theorem enqueueAll_rep (cfg : Config) (ps : List pid32) {s : State} {l : List (Nat × pid32)}
    (hr : Rep s l) (hn : l.length + ps.length ≤ cfg.NPROC)
    (hv : ∀ p ∈ ps, cfg.isbadpid p = false) :
    ∃ s1 l1, enqueueAll cfg ps s = some (ps, s1) ∧ Rep s1 l1 ∧
      l1.map Prod.snd = l.map Prod.snd ++ ps := by
  induction ps generalizing s l with
  | nil => exact ⟨s, l, rfl, hr, by simp⟩
  | cons p ps ih =>
    have hfull : isfull cfg s.q = false := by
      rw [rep_isfull hr]
      simp only [List.length_cons] at hn
      simp only [decide_eq_false_iff_not, not_le]
      omega
    obtain ⟨s2, he, hr2⟩ := enqueue_rep p hr hfull (hv p (List.mem_cons_self _ _))
    obtain ⟨s1, l1, h1, hr1, hl1⟩ := ih hr2
      (by simp only [List.length_append, List.length_cons, List.length_nil] at hn ⊢; omega)
      (fun q hq => hv q (List.mem_cons_of_mem _ hq))
    refine ⟨s1, l1, ?_, hr1, ?_⟩
    · simp [enqueueAll, he, h1]
    · simp [hl1]

theorem dequeueN_rep (cfg : Config) {s : State} {l : List (Nat × pid32)} (hr : Rep s l) :
    ∃ s2, dequeueN cfg l.length s = some (l.map Prod.snd, s2) ∧ Rep s2 [] := by
  induction l generalizing s with
  | nil => exact ⟨s, rfl, hr⟩
  | cons x l ih =>
    obtain ⟨s1, hd, hr1⟩ := dequeue_rep cfg hr
    obtain ⟨s2, h2, hr2⟩ := ih hr1
    exact ⟨s2, by simp [dequeueN, hd, h2], hr2⟩

theorem split_first {pid : pid32} {l : List (Nat × pid32)} (h : pid ∈ l.map Prod.snd) :
    ∃ l1 c l2, l = l1 ++ c :: l2 ∧ c.2 = pid ∧ ∀ x ∈ l1, x.2 ≠ pid := by
  induction l with
  | nil => simp at h
  | cons x l ih =>
    by_cases hx : x.2 = pid
    · exact ⟨[], x, l, rfl, hx, by simp⟩
    · have h2 : pid ∈ l.map Prod.snd := by
        rcases List.mem_cons.1 h with h | h
        · exact absurd h.symm hx
        · exact h
      obtain ⟨l1, c, l2, rfl, hc, h1⟩ := ih h2
      refine ⟨x :: l1, c, l2, rfl, hc, ?_⟩
      intro y hy
      rcases List.mem_cons.1 hy with rfl | hy
      · exact hx
      · exact h1 y hy

theorem removedPids_head (p : pid32) (t : List pid32) : removedPids p (p :: t) = t := by
  simp [removedPids]

theorem getLast?_cons_snoc (y z : pid32) (t : List pid32) :
    (y :: t ++ [z]).getLast? = some z := List.getLast?_concat (y :: t)

theorem removedPids_last {y p : pid32} (t : List pid32) (hy : y ≠ p) :
    removedPids p (y :: t ++ [p]) = y :: t := by
  unfold removedPids
  rw [if_neg (by simpa using hy), if_pos (getLast?_cons_snoc y p t)]
  exact List.dropLast_concat

theorem removedPids_mid {y z p : pid32} (l1 l2 : List pid32) (hy : y ≠ p) (hz : z ≠ p)
    (h1 : p ∉ l1) : removedPids p (y :: l1 ++ p :: l2 ++ [z]) = y :: l1 ++ l2 ++ [z] := by
  unfold removedPids
  have hl : (y :: l1 ++ p :: l2 ++ [z]).getLast? = some z := List.getLast?_concat _
  rw [if_neg (by simpa using hy), if_neg (by rw [hl]; simpa using hz)]
  have h2 : p ∉ y :: l1 := by
    simp only [List.mem_cons, not_or]
    exact ⟨Ne.symm hy, h1⟩
  rw [List.append_assoc, List.erase_append_right _ h2]
  simp

theorem remove_found {cfg : Config} {s : State} {l : List (Nat × pid32)} {pid : pid32}
    (hr : Rep s l) (hp : pid ∈ l.map Prod.snd) (hb : cfg.isbadpid pid = false) :
    ∃ s2 l2, remove cfg pid s = some (pid, s2) ∧ Rep s2 l2 ∧
      l2.map Prod.snd = removedPids pid (l.map Prod.snd) ∧ l2.length + 1 = l.length := by
  cases l with
  | nil => simp at hp
  | cons y r =>
    by_cases hy : y.2 = pid
    · obtain ⟨s2, h1, h2⟩ := remove_head hr hb hy
      refine ⟨s2, r, h1, h2, ?_, rfl⟩
      rw [List.map_cons, hy, removedPids_head]
    · have hp2 : pid ∈ r.map Prod.snd := by
        rcases List.mem_cons.1 hp with h | h
        · exact absurd h.symm hy
        · exact h
      rcases snoc_cases r with rfl | ⟨r0, z, rfl⟩
      · simp at hp2
      · by_cases hz : z.2 = pid
        · obtain ⟨s2, h1, h2⟩ := remove_last hr hb hy hz
          refine ⟨s2, y :: r0, h1, h2, ?_, by simp⟩
          have e : List.map Prod.snd (y :: (r0 ++ [z])) = y.2 :: r0.map Prod.snd ++ [pid] := by
            simp [hz]
          rw [e, removedPids_last _ hy]
          rfl
        · have hp3 : pid ∈ r0.map Prod.snd := by
            simp only [List.map_append, List.map_cons, List.map_nil, List.mem_append,
              List.mem_singleton] at hp2
            rcases hp2 with h | h
            · exact h
            · exact absurd h.symm hz
          obtain ⟨l1, c, l2, rfl, hc, h1⟩ := split_first hp3
          have hr3 : Rep s (y :: l1 ++ c :: (l2 ++ [z])) := by simpa using hr
          obtain ⟨s2, h2, h3⟩ := remove_mid hr3 hb hy h1 hc hz
          refine ⟨s2, _, h2, h3, ?_, by simp; omega⟩
          have hnm : pid ∉ l1.map Prod.snd := by
            intro hm
            obtain ⟨x, hx, hxp⟩ := List.mem_map.1 hm
            exact h1 x hx hxp
          have e : List.map Prod.snd (y :: (l1 ++ c :: l2 ++ [z])) =
              y.2 :: l1.map Prod.snd ++ pid :: l2.map Prod.snd ++ [z.2] := by
            simp [hc]
          rw [e, removedPids_mid _ _ hy hz hnm]
          simp

theorem removedPids_nodup {pid : pid32} {ps : List pid32} (hn : ps.Nodup) :
    removedPids pid ps = ps.erase pid := by
  unfold removedPids
  split_ifs with h1 h2
  · cases ps with
    | nil => simp at h1
    | cons x t =>
      simp only [List.head?_cons, Option.some.injEq] at h1
      subst h1
      simp
  · rcases List.eq_nil_or_concat ps with rfl | ⟨t, x, rfl⟩
    · simp at h2
    · simp only [List.concat_eq_append, List.getLast?_concat, Option.some.injEq] at h2
      subst h2
      simp only [List.concat_eq_append] at hn ⊢
      have hx : x ∉ t := by
        rw [List.nodup_append] at hn
        exact fun hm => hn.2.2 hm (by simp)
      rw [List.dropLast_concat, List.erase_append_right _ hx]
      simp
  · rfl

theorem getbypidLoop_seg {m : Heap} {p : Option Nat} {l : List (Nat × pid32)} {fuel : Nat}
    (pid : pid32) (h : Seg m p l none) (hf : l.length ≤ fuel) :
    getbypidLoop m pid fuel (hdOr l none) =
      some ((l.find? (fun x => decide (x.2 = pid))).map Prod.fst) := by
  induction l generalizing p fuel with
  | nil => cases fuel <;> rfl
  | cons x l ih =>
    cases fuel with
    | zero => simp at hf
    | succ fuel =>
      have := ih h.2 (by simpa using hf)
      by_cases hx : x.2 = pid
      · simp [getbypidLoop, h.1, hx]
      · simp [getbypidLoop, h.1, hx, this]

theorem getbypid_rep (cfg : Config) {s : State} {l : List (Nat × pid32)} (pid : pid32)
    (hr : Rep s l) : ∃ r, getbypid cfg pid s = some (r, s) := by
  unfold getbypid
  split_ifs
  · exact ⟨_, rfl⟩
  · rw [hr.2.2.1, getbypidLoop_seg pid hr.2.1 (seg_length_le hr.1 hr.2.1)]
    exact ⟨_, rfl⟩

theorem step_refines (cfg : Config) (c : Call) {s : State} {l : List (Nat × pid32)}
    (hr : Rep s l) :
    ∃ r s2 l2, step cfg c s = some (r, s2) ∧ Rep s2 l2 ∧
      r.value = (absStep cfg c (l.map Prod.snd)).1 ∧
      l2.map Prod.snd = (absStep cfg c (l.map Prod.snd)).2 := by
  cases c with
  | enqueue pid =>
    by_cases hg : (isfull cfg s.q || cfg.isbadpid pid) = true
    · refine ⟨Ret.val cfg.SYSERR, s, l, by simp [step, enqueue, hg], hr, ?_, ?_⟩ <;>
        · rw [rep_isfull hr] at hg
          simp [absStep, Ret.value, hg]
    · have hg2 := hg
      simp only [Bool.or_eq_true, not_or, Bool.not_eq_true] at hg2
      obtain ⟨s2, h1, h2⟩ := enqueue_rep pid hr hg2.1 hg2.2
      refine ⟨Ret.val pid, s2, _, by simp [step, h1], h2, ?_, ?_⟩ <;>
        · rw [rep_isfull hr] at hg
          simp [absStep, Ret.value, hg]
  | dequeue =>
    cases l with
    | nil =>
      exact ⟨Ret.val cfg.EMPTY, s, [], by simp [step, dequeue, rep_isempty hr], hr, rfl, rfl⟩
    | cons x t =>
      obtain ⟨s2, h1, h2⟩ := dequeue_rep cfg hr
      exact ⟨Ret.val x.2, s2, t, by simp [step, h1], h2, rfl, rfl⟩
  | getfirst =>
    cases l with
    | nil =>
      exact ⟨Ret.val cfg.EMPTY, s, [], by simp [step, getfirst, rep_isempty hr], hr, rfl, rfl⟩
    | cons x t =>
      obtain ⟨s2, h1, h2⟩ := dequeue_rep cfg hr
      exact ⟨Ret.val x.2, s2, t, by simp [step, getfirst, rep_isempty hr, h1], h2, rfl, rfl⟩
  | getlast =>
    rcases snoc_cases l with rfl | ⟨t, x, rfl⟩
    · exact ⟨Ret.val cfg.EMPTY, s, [], by simp [step, getlast, rep_isempty hr], hr, rfl, rfl⟩
    · obtain ⟨s2, h1, h2⟩ := getlast_rep cfg hr
      refine ⟨Ret.val x.2, s2, t, by simp [step, h1], h2, ?_, ?_⟩ <;>
        simp [absStep, Ret.value]
  | remove pid =>
    by_cases hl : l = []
    · subst hl
      exact ⟨Ret.val cfg.EMPTY, s, [], by simp [step, remove, rep_isempty hr], hr, rfl, rfl⟩
    · have he : isempty s.q = false := by simp [rep_isempty hr, hl]
      by_cases hb : cfg.isbadpid pid = true
      · refine ⟨Ret.val cfg.SYSERR, s, l, by simp [step, remove, he, hb], hr, ?_, ?_⟩ <;>
          simp [absStep, Ret.value, hl, hb]
      · simp only [Bool.not_eq_true] at hb
        by_cases hp : pid ∈ l.map Prod.snd
        · obtain ⟨s2, l2, h1, h2, h3, -⟩ := remove_found hr hp hb
          refine ⟨Ret.val pid, s2, l2, by simp [step, h1], h2, ?_, ?_⟩
          · simp only [absStep, List.map_eq_nil_iff, hl, if_false, hb, Bool.false_eq_true, hp,
              if_true, Ret.value]
          · simp only [absStep, List.map_eq_nil_iff, hl, if_false, hb, Bool.false_eq_true, hp,
              if_true, h3]
        · have h1 := remove_absent hr hl hb (fun x hx hxp => hp (hxp ▸ List.mem_map_of_mem _ hx))
          refine ⟨Ret.val cfg.SYSERR, s, l, by simp [step, h1], hr, ?_, ?_⟩
          · simp only [absStep, List.map_eq_nil_iff, hl, if_false, hb, Bool.false_eq_true, hp,
              Ret.value]
          · simp only [absStep, List.map_eq_nil_iff, hl, if_false, hb, Bool.false_eq_true, hp]
  | getbypid pid =>
    obtain ⟨r, h1⟩ := getbypid_rep cfg pid hr
    exact ⟨Ret.ptr r, s, l, by simp [step, h1], hr, rfl, rfl⟩

theorem absStep_length_le (cfg : Config) (c : Call) (ps : List pid32)
    (h : ps.length ≤ cfg.NPROC) : (absStep cfg c ps).2.length ≤ cfg.NPROC := by
  cases c with
  | enqueue pid =>
    simp only [absStep]
    split_ifs with hg
    · exact h
    · simp only [Bool.or_eq_true, decide_eq_true_eq, not_or, not_le] at hg
      simp only [List.length_append, List.length_cons, List.length_nil]
      omega
  | dequeue =>
    cases ps with
    | nil => exact h
    | cons x t =>
      simp only [absStep, List.length_cons] at h ⊢
      omega
  | getfirst =>
    cases ps with
    | nil => exact h
    | cons x t =>
      simp only [absStep, List.length_cons] at h ⊢
      omega
  | getlast =>
    simp only [absStep]
    split
    · exact h
    · simp only [List.length_dropLast]
      omega
  | remove pid =>
    simp only [absStep, removedPids]
    split_ifs <;> first
      | exact h
      | (simp only [List.length_tail]; omega)
      | (simp only [List.length_dropLast]; omega)
      | (exact le_trans (List.length_erase_le _ _) h)
  | getbypid pid => exact h

theorem reachable_rep {cfg : Config} {s : State} (h : Reachable cfg s) :
    ∃ l, Rep s l ∧ l.length ≤ cfg.NPROC := by
  induction h with
  | init mem => exact ⟨[], rep_newqueue mem, Nat.zero_le _⟩
  | call c r _ hs ih =>
    obtain ⟨l, hr, hl⟩ := ih
    obtain ⟨r2, s3, l2, h1, h2, -, h4⟩ := step_refines cfg c hr
    rw [h1] at hs
    cases hs
    refine ⟨l2, h2, ?_⟩
    have := absStep_length_le cfg c (l.map Prod.snd) (by simpa using hl)
    rw [← h4] at this
    simpa using this

theorem reachable_wellFormed {cfg : Config} {s : State} (h : Reachable cfg s) : WellFormed s := by
  obtain ⟨l, hr, -⟩ := reachable_rep h
  exact rep_wellFormed hr

theorem removedPids_length {pid : pid32} {ps : List pid32} (h : pid ∈ ps) :
    (removedPids pid ps).length + 1 = ps.length := by
  have hpos : 0 < ps.length := List.length_pos_of_mem h
  unfold removedPids
  split_ifs
  · simp only [List.length_tail]; omega
  · simp only [List.length_dropLast]; omega
  · rw [List.length_erase_of_mem h]; omega

theorem step_count (cfg : Config) (c : Call) {s : State} {l : List (Nat × pid32)}
    (hr : Rep s l) :
    (absStep cfg c (l.map Prod.snd)).2.length + (if removalSucceeds cfg c s then 1 else 0) =
      l.length + (if enqueueSucceeds cfg c s then 1 else 0) := by
  cases c with
  | enqueue pid =>
    simp only [absStep, enqueueSucceeds, removalSucceeds, rep_isfull hr, List.length_map]
    split_ifs <;> first
      | (simp_all; done)
      | (simp_all; omega)
  | dequeue =>
    cases l <;> simp [absStep, enqueueSucceeds, removalSucceeds, rep_isempty hr]
  | getfirst =>
    cases l <;> simp [absStep, enqueueSucceeds, removalSucceeds, rep_isempty hr]
  | getlast =>
    rcases snoc_cases l with rfl | ⟨t, x, rfl⟩ <;>
      simp [absStep, enqueueSucceeds, removalSucceeds, rep_isempty hr]
  | remove pid =>
    simp only [absStep, enqueueSucceeds, removalSucceeds, rep_isempty hr, rep_pids hr,
      List.map_eq_nil_iff]
    by_cases hl : l = []
    · simp [hl]
    · by_cases hb : cfg.isbadpid pid = true
      · simp [hl, hb]
      · by_cases hp : pid ∈ l.map Prod.snd
        · have := removedPids_length hp
          simp only [List.length_map] at this
          simp [hl, hb, hp, this]
        · simp [hl, hb, hp]
  | getbypid pid => simp [absStep, enqueueSucceeds, removalSucceeds]

theorem absStep_valid (cfg : Config) (c : Call) (ps : List pid32)
    (h : ∀ p ∈ ps, cfg.isbadpid p = false) :
    ∀ p ∈ (absStep cfg c ps).2, cfg.isbadpid p = false := by
  cases c with
  | enqueue pid =>
    simp only [absStep]
    split_ifs with hg
    · exact h
    · simp only [Bool.or_eq_true, not_or, Bool.not_eq_true] at hg
      intro p hp
      rcases List.mem_append.1 hp with hp | hp
      · exact h p hp
      · rw [List.mem_singleton.1 hp]
        exact hg.2
  | dequeue =>
    cases ps with
    | nil => exact h
    | cons x t => exact fun p hp => h p (List.mem_cons_of_mem _ hp)
  | getfirst =>
    cases ps with
    | nil => exact h
    | cons x t => exact fun p hp => h p (List.mem_cons_of_mem _ hp)
  | getlast =>
    simp only [absStep]
    split
    · exact h
    · exact fun p hp => h p (List.mem_of_mem_dropLast hp)
  | remove pid =>
    simp only [absStep, removedPids]
    split_ifs <;> first
      | exact h
      | exact fun p hp => h p (List.mem_of_mem_tail hp)
      | exact fun p hp => h p (List.mem_of_mem_dropLast hp)
      | exact fun p hp => h p (List.mem_of_mem_erase hp)
  | getbypid pid => exact h

theorem ret_of_value {r : Ret} {v : pid32} (h : r.value = some v) : r = Ret.val v := by
  cases r with
  | val w =>
    simp only [Ret.value, Option.some.injEq] at h
    rw [h]
  | ptr p => simp [Ret.value] at h

theorem ne_of_valid {cfg : Config} {v w : pid32} (hv : cfg.isbadpid v = false)
    (hw : cfg.isbadpid w = true) : v ≠ w := by
  intro h
  rw [h, hw] at hv
  exact Bool.noConfusion hv

theorem step_observed (cfg : Config) (c : Call) {s : State} {l : List (Nat × pid32)} {r : Ret}
    (hS : cfg.isbadpid cfg.SYSERR = true) (hE : cfg.isbadpid cfg.EMPTY = true)
    (hr : Rep s l) (hv : ∀ x ∈ l, cfg.isbadpid x.2 = false)
    (hval : r.value = (absStep cfg c (l.map Prod.snd)).1) :
    returnedItsPid cfg c r = enqueueSucceeds cfg c s ∧
      returnedRemovedPid cfg c r = removalSucceeds cfg c s := by
  cases c with
  | enqueue pid =>
    simp only [absStep, List.length_map] at hval
    simp only [returnedRemovedPid, removalSucceeds, enqueueSucceeds, rep_isfull hr, and_true]
    split_ifs at hval with hg
    · rw [ret_of_value hval]
      simp [returnedItsPid, hg]
    · rw [ret_of_value hval]
      have hg2 := hg
      simp only [Bool.or_eq_true, not_or, Bool.not_eq_true] at hg2
      have := ne_of_valid hg2.2 hS
      simp [returnedItsPid, hg, this]
  | dequeue =>
    cases l with
    | nil =>
      rw [ret_of_value hval]
      simp [returnedItsPid, returnedRemovedPid, enqueueSucceeds, removalSucceeds, rep_isempty hr]
    | cons x t =>
      rw [ret_of_value hval]
      have h1 := ne_of_valid (hv x (List.mem_cons_self _ _)) hS
      have h2 := ne_of_valid (hv x (List.mem_cons_self _ _)) hE
      simp [returnedItsPid, returnedRemovedPid, enqueueSucceeds, removalSucceeds,
        rep_isempty hr, h1, h2]
  | getfirst =>
    cases l with
    | nil =>
      rw [ret_of_value hval]
      simp [returnedItsPid, returnedRemovedPid, enqueueSucceeds, removalSucceeds, rep_isempty hr]
    | cons x t =>
      rw [ret_of_value hval]
      have h1 := ne_of_valid (hv x (List.mem_cons_self _ _)) hS
      have h2 := ne_of_valid (hv x (List.mem_cons_self _ _)) hE
      simp [returnedItsPid, returnedRemovedPid, enqueueSucceeds, removalSucceeds,
        rep_isempty hr, h1, h2]
  | getlast =>
    rcases snoc_cases l with rfl | ⟨t, x, rfl⟩
    · rw [ret_of_value hval]
      simp [returnedItsPid, returnedRemovedPid, enqueueSucceeds, removalSucceeds, rep_isempty hr]
    · have hval2 : r.value = some x.2 := by simpa [absStep] using hval
      rw [ret_of_value hval2]
      have h1 := ne_of_valid (hv x (by simp)) hS
      have h2 := ne_of_valid (hv x (by simp)) hE
      simp [returnedItsPid, returnedRemovedPid, enqueueSucceeds, removalSucceeds,
        rep_isempty hr, h1, h2]
  | remove pid =>
    simp only [absStep, List.map_eq_nil_iff] at hval
    simp only [returnedItsPid, enqueueSucceeds, removalSucceeds, rep_isempty hr, rep_pids hr,
      true_and]
    split_ifs at hval with hl hb hp
    · rw [ret_of_value hval]
      simp [returnedRemovedPid, hl]
    · rw [ret_of_value hval]
      simp [returnedRemovedPid, hl, hb]
    · rw [ret_of_value hval]
      simp only [Bool.not_eq_true] at hb
      have h1 := ne_of_valid hb hS
      have h2 := ne_of_valid hb hE
      simp [returnedRemovedPid, hl, hb, hp, h1, h2]
    · rw [ret_of_value hval]
      simp [returnedRemovedPid, hl, hb, hp]
  | getbypid pid =>
    cases r <;> simp [returnedItsPid, returnedRemovedPid, enqueueSucceeds, removalSucceeds]

theorem run_accounting (cfg : Config) (cs : List Call) {s : State} {l : List (Nat × pid32)}
    (hr : Rep s l) (hv : ∀ x ∈ l, cfg.isbadpid x.2 = false) :
    ∃ log s2 l2, run cfg cs s = some (log, s2) ∧ Rep s2 l2 ∧
      l2.length + removals cfg log = l.length + enqueues cfg log ∧
      (cfg.isbadpid cfg.SYSERR = true → cfg.isbadpid cfg.EMPTY = true →
        observedEnqueues cfg log = enqueues cfg log ∧
        observedRemovals cfg log = removals cfg log) := by
  induction cs generalizing s l with
  | nil => exact ⟨[], s, l, rfl, hr, rfl, fun _ _ => ⟨rfl, rfl⟩⟩
  | cons c cs ih =>
    obtain ⟨r, s1, l1, h1, hr1, hval, hl1⟩ := step_refines cfg c hr
    have hv0 : ∀ p ∈ l.map Prod.snd, cfg.isbadpid p = false := by
      intro p hp
      obtain ⟨x, hx, rfl⟩ := List.mem_map.1 hp
      exact hv x hx
    have hv1 : ∀ x ∈ l1, cfg.isbadpid x.2 = false := by
      intro x hx
      apply absStep_valid cfg c _ hv0
      rw [← hl1]
      exact List.mem_map_of_mem _ hx
    obtain ⟨log, s2, l2, h2, hr2, hc, ho⟩ := ih hr1 hv1
    refine ⟨(c, s, r) :: log, s2, l2, by simp [run, h1, h2], hr2, ?_, ?_⟩
    · have hs := step_count cfg c hr
      rw [← hl1, List.length_map] at hs
      simp only [enqueues, removals, List.filter_cons] at hc ⊢
      split_ifs at hs ⊢ <;> (try simp only [List.length_cons]) <;> omega
    · intro hS hE
      obtain ⟨ho1, ho2⟩ := ho hS hE
      obtain ⟨hs1, hs2⟩ := step_observed cfg c hS hE hr hv hval
      simp only [observedEnqueues, observedRemovals, enqueues, removals, List.filter_cons,
        hs1, hs2] at ho1 ho2 ⊢
      constructor
      · split_ifs <;> simp [ho1]
      · split_ifs <;> simp [ho2]

theorem scenario_enqueue_5_7 :
    (run sampleCfg [Call.enqueue 5, Call.enqueue 7, Call.dequeue, Call.dequeue]
        (newqueue [])).map
      (fun t => (t.1.map (fun e => (e.2.2, e.2.1.q.size)), t.2.q.size, isempty t.2.q)) =
    some ([(Ret.val 5, 0), (Ret.val 7, 1), (Ret.val 5, 2), (Ret.val 7, 1)], 0, true) := by
  decide

/-! ## The claims -/

/-- C1. FIFO order: enqueueing valid pids `p1..pn` (`n ≤ NPROC`) into a queue
new from `newqueue` returns each pid, and `n` calls of `dequeue` then return
`p1, ..., pn` in that order and leave the queue empty. -/
theorem fifo_order (cfg : Config) (mem : Heap) (ps : List pid32)
    (hv : ∀ p ∈ ps, cfg.isbadpid p = false) (hn : ps.length ≤ cfg.NPROC) :
    ∃ s1 s2, enqueueAll cfg ps (newqueue mem) = some (ps, s1) ∧
      dequeueN cfg ps.length s1 = some (ps, s2) ∧
      isempty s2.q = true ∧ s2.q = (newqueue mem).q ∧ pids s2 = some [] := by
  obtain ⟨s1, l1, h1, hr1, hl1⟩ := enqueueAll_rep cfg ps (rep_newqueue mem)
    (by simpa using hn) hv
  obtain ⟨s2, h2, hr2⟩ := dequeueN_rep cfg hr1
  simp only [List.map_nil, List.nil_append] at hl1
  have hlen : l1.length = ps.length := by rw [← hl1, List.length_map]
  rw [hlen, hl1] at h2
  refine ⟨s1, s2, h1, h2, by simp [rep_isempty hr2], ?_, by simpa using rep_pids hr2⟩
  obtain ⟨-, -, hh, ht, hsz⟩ := hr2
  cases s2 with
  | mk m q =>
    cases q with
    | mk h t z =>
      simp only [hdOr_nil, lastOr_nil, List.length_nil, Nat.cast_zero] at hh ht hsz
      simp [newqueue, hh, ht, hsz]

/-- Witness of C1 for the pids `1, 2, 3` on an empty heap. -/
theorem fifo_order_witness :
    ∃ s1 s2, enqueueAll sampleCfg [1, 2, 3] (newqueue []) = some ([1, 2, 3], s1) ∧
      dequeueN sampleCfg 3 s1 = some ([1, 2, 3], s2) ∧
      isempty s2.q = true ∧ s2.q = (newqueue []).q ∧ pids s2 = some [] :=
  fifo_order sampleCfg [] [1, 2, 3] (by decide) (by decide)

/-- C2. Capacity enforcement: on a queue holding `NPROC` entries `enqueue`
returns `SYSERR` for every pid, valid or not, and the state (head, tail,
size and every entry) is the one before the call. -/
theorem enqueue_full_refused (cfg : Config) (s : State) (pid : pid32)
    (hfull : s.q.size = (cfg.NPROC : Int)) :
    enqueue cfg pid s = some (cfg.SYSERR, s) := by
  simp [enqueue, isfull, hfull]

/-- Witness of C2: the full queue `0, 1, ..., 7` of `sampleCfg` refuses pid `2`. -/
theorem enqueue_full_refused_witness :
    WellFormed sFull ∧ pids sFull = some [0, 1, 2, 3, 4, 5, 6, 7] ∧
      enqueue sampleCfg 2 sFull = some (sampleCfg.SYSERR, sFull) :=
  ⟨rep_wellFormed rep_sFull, by decide, enqueue_full_refused sampleCfg sFull 2 (by decide)⟩

/-- C3. Underflow: on an empty queue each of `dequeue`, `getfirst`, `getlast`
and `remove` (for every pid) returns `EMPTY` and leaves the state as it was. -/
theorem underflow_empty (cfg : Config) (s : State) (pid : pid32) (h0 : s.q.size = 0) :
    dequeue cfg s = some (cfg.EMPTY, s) ∧ getfirst cfg s = some (cfg.EMPTY, s) ∧
      getlast cfg s = some (cfg.EMPTY, s) ∧ remove cfg pid s = some (cfg.EMPTY, s) := by
  simp [dequeue, getfirst, getlast, remove, isempty, h0]

/-- Witness of C3: the queue `newqueue` creates, and a pid the validator rejects. -/
theorem underflow_empty_witness :
    dequeue sampleCfg (newqueue []) = some (sampleCfg.EMPTY, newqueue []) ∧
      getfirst sampleCfg (newqueue []) = some (sampleCfg.EMPTY, newqueue []) ∧
      getlast sampleCfg (newqueue []) = some (sampleCfg.EMPTY, newqueue []) ∧
      remove sampleCfg (-7) (newqueue []) = some (sampleCfg.EMPTY, newqueue []) :=
  underflow_empty sampleCfg (newqueue []) (-7) rfl

/-- C4. Removal by pid preserves order: on a well-formed queue whose entries
carry pairwise distinct pids, `remove(p, q)` for a valid pid `p` carried by
some entry (head, tail or inside) returns `p`, decrements `size` by one and
leaves a well-formed queue whose pid sequence is the old one with `p` erased. -/
theorem remove_preserves_order (cfg : Config) (s : State) (ps : List pid32) (p : pid32)
    (hw : WellFormed s) (hps : pids s = some ps) (hnd : ps.Nodup) (hp : p ∈ ps)
    (hv : cfg.isbadpid p = false) :
    ∃ s2, remove cfg p s = some (p, s2) ∧ s2.q.size = s.q.size - 1 ∧ WellFormed s2 ∧
      pids s2 = some (ps.erase p) := by
  obtain ⟨l, hr, rfl⟩ := wellFormed_pids hw hps
  obtain ⟨s2, l2, h1, hr2, hl2, hlen⟩ := remove_found hr hp hv
  refine ⟨s2, h1, ?_, rep_wellFormed hr2, ?_⟩
  · rw [hr2.2.2.2.2, hr.2.2.2.2, ← hlen]
    push_cast
    ring
  · rw [rep_pids hr2, hl2, removedPids_nodup hnd]

/-- Witness of C4: after `enqueue` of `1, 2, 3`, `remove(2)` returns `2` and
leaves the pids `1, 3`. -/
theorem remove_preserves_order_witness :
    ∃ s2, remove sampleCfg 2 s123 = some (2, s2) ∧ s2.q.size = s123.q.size - 1 ∧
      WellFormed s2 ∧ pids s2 = some ([1, 2, 3].erase 2) :=
  remove_preserves_order sampleCfg s123 [1, 2, 3] 2 (rep_wellFormed rep_s123) (by decide)
    (by decide) (by decide) (by decide)

/-- C5, counterexample. On the queue `newqueue` creates, `remove` of the
valid pid `2`, which no entry carries, returns `EMPTY`, not `SYSERR`. -/
theorem remove_absent_on_empty_returns_EMPTY :
    Reachable sampleCfg (newqueue []) ∧ pids (newqueue []) = some [] ∧
      remove sampleCfg 2 (newqueue []) = some (sampleCfg.EMPTY, newqueue []) ∧
      remove sampleCfg 2 (newqueue []) ≠ some (sampleCfg.SYSERR, newqueue []) :=
  ⟨Reachable.init [], by decide, by decide, by decide⟩

/-- C5, amended. In every reachable state, `remove(pid, q)` for a pid that no
entry carries leaves the state (head, tail, size and every entry) as it was;
it returns `SYSERR` when the queue is not empty and `EMPTY` when it is. -/
theorem remove_absent_unchanged (cfg : Config) (s : State) (ps : List pid32) (pid : pid32)
    (hr : Reachable cfg s) (hps : pids s = some ps) (hp : pid ∉ ps) :
    remove cfg pid s = some (if s.q.size = 0 then cfg.EMPTY else cfg.SYSERR, s) := by
  obtain ⟨l, hrep, rfl⟩ := wellFormed_pids (reachable_wellFormed hr) hps
  by_cases h0 : s.q.size = 0
  · simp [remove, isempty, h0]
  · have hl : l ≠ [] := by
      intro hl
      apply h0
      simp [hrep.2.2.2.2, hl]
    by_cases hb : cfg.isbadpid pid = true
    · simp [remove, isempty, h0, hb]
    · simp only [Bool.not_eq_true] at hb
      rw [remove_absent hrep hl hb (fun x hx hxp => hp (hxp ▸ List.mem_map_of_mem _ hx))]
      simp [h0]

/-- Witness of C5 (amended): pid `0` is not in the queue holding `1, 2, 3`. -/
theorem remove_absent_unchanged_witness :
    remove sampleCfg 0 s123 =
      some (if s123.q.size = 0 then sampleCfg.EMPTY else sampleCfg.SYSERR, s123) :=
  remove_absent_unchanged sampleCfg s123 [1, 2, 3] 0
    (Reachable.call (Call.enqueue 3) (Ret.val 3)
      (Reachable.call (Call.enqueue 2) (Ret.val 2)
        (Reachable.call (Call.enqueue 1) (Ret.val 1) (Reachable.init []) rfl) rfl) rfl)
    (by decide) (by decide)

/-- C6. Size accounting: every finite sequence of calls of `enqueue`,
`dequeue`, `getfirst`, `getlast`, `remove` and `getbypid` on a queue new from
`newqueue` runs to its end, and with `a` the number of `enqueue` calls that
succeeded and `b` the number of removal calls that succeeded, `b ≤ a` and
the `size` field is `a - b`. When the validator rejects the two sentinels, a
call succeeded exactly when the caller saw it: `a` is the number of `enqueue`
calls that returned their pid and `b` the number of removal calls that
returned a pid rather than `EMPTY` or `SYSERR`. -/
theorem size_accounting (cfg : Config) (mem : Heap) (cs : List Call) :
    ∃ log s, run cfg cs (newqueue mem) = some (log, s) ∧
      removals cfg log ≤ enqueues cfg log ∧
      s.q.size = (enqueues cfg log : Int) - (removals cfg log : Int) ∧
      (cfg.isbadpid cfg.SYSERR = true → cfg.isbadpid cfg.EMPTY = true →
        observedEnqueues cfg log = enqueues cfg log ∧
        observedRemovals cfg log = removals cfg log) := by
  obtain ⟨log, s, l, h1, hr, hc, ho⟩ := run_accounting cfg cs (rep_newqueue mem) (by simp)
  simp only [List.length_nil, Nat.zero_add] at hc
  refine ⟨log, s, h1, by omega, ?_, ho⟩
  rw [hr.2.2.2.2]
  omega

/-- Witness of C6: `enqueue(5)`, `enqueue(7)`, `dequeue`, `dequeue` on a new
queue, with the sentinels of `sampleCfg`, which its validator rejects. -/
theorem size_accounting_witness :
    ∃ log s, run sampleCfg [Call.enqueue 5, Call.enqueue 7, Call.dequeue, Call.dequeue]
        (newqueue []) = some (log, s) ∧
      removals sampleCfg log ≤ enqueues sampleCfg log ∧
      s.q.size = (enqueues sampleCfg log : Int) - (removals sampleCfg log : Int) ∧
      observedEnqueues sampleCfg log = enqueues sampleCfg log ∧
      observedRemovals sampleCfg log = removals sampleCfg log :=
  match size_accounting sampleCfg []
    [Call.enqueue 5, Call.enqueue 7, Call.dequeue, Call.dequeue] with
  | ⟨log, s, h1, h2, h3, h4⟩ => ⟨log, s, h1, h2, h3, h4 (by decide) (by decide)⟩

/-- C7. Size/emptiness invariant: the state `newqueue` produces satisfies it,
and on a queue satisfying the invariants of the data model every call of
`enqueue`, `dequeue`, `getfirst`, `getlast`, `remove` and `getbypid`,
successful or not, returns and leaves a state that satisfies it: `size` is
the number of entries on the walk from `head` along `next`, and `size == 0`
iff `head` is `NULL` iff `tail` is `NULL`. -/
theorem sizeInv_preserved (cfg : Config) (mem : Heap) (s : State) (c : Call)
    (hs : SizeInv s) (hl : LinkInv s) :
    SizeInv (newqueue mem) ∧ ∃ r s2, step cfg c s = some (r, s2) ∧ SizeInv s2 := by
  obtain ⟨l, -, hr⟩ := wellFormed_rep ⟨hs, hl⟩
  obtain ⟨r, s2, l2, h1, h2, -, -⟩ := step_refines cfg c hr
  exact ⟨rep_sizeInv (rep_newqueue mem), r, s2, h1, rep_sizeInv h2⟩

/-- Witness of C7: `remove(2)` on the queue holding `1, 2, 3`. -/
theorem sizeInv_preserved_witness :
    SizeInv (newqueue []) ∧
      ∃ r s2, step sampleCfg (Call.remove 2) s123 = some (r, s2) ∧ SizeInv s2 :=
  sizeInv_preserved sampleCfg [] s123 (Call.remove 2) (rep_sizeInv rep_s123)
    (rep_linkInv rep_s123)

/-- C8. Link invariant: the state `newqueue` produces satisfies it, and on a
queue satisfying the invariants of the data model every call of `enqueue`,
`dequeue`, `getfirst`, `getlast` and `remove` (and `getbypid`) returns and
leaves a state that satisfies it: the walk from `head` along `next` is finite
and without repetition and ends at `tail`, `head->prev` and `tail->next` are
`NULL`, `next` and `prev` are inverse on linked entries, and the walk from
`tail` along `prev` is the reverse of the walk from `head`. -/
theorem linkInv_preserved (cfg : Config) (mem : Heap) (s : State) (c : Call)
    (hs : SizeInv s) (hl : LinkInv s) :
    LinkInv (newqueue mem) ∧ ∃ r s2, step cfg c s = some (r, s2) ∧ LinkInv s2 := by
  obtain ⟨l, -, hr⟩ := wellFormed_rep ⟨hs, hl⟩
  obtain ⟨r, s2, l2, h1, h2, -, -⟩ := step_refines cfg c hr
  exact ⟨rep_linkInv (rep_newqueue mem), r, s2, h1, rep_linkInv h2⟩

/-- Witness of C8: `enqueue(0)` on the queue holding `1, 2, 3`. -/
theorem linkInv_preserved_witness :
    LinkInv (newqueue []) ∧
      ∃ r s2, step sampleCfg (Call.enqueue 0) s123 = some (r, s2) ∧ LinkInv s2 :=
  linkInv_preserved sampleCfg [] s123 (Call.enqueue 0) (rep_sizeInv rep_s123)
    (rep_linkInv rep_s123)

/-- C9. Capacity bound: in every reachable state `0 ≤ size ≤ NPROC`; no
`enqueue` succeeds when `size` is `NPROC`, and every call returns and leaves
a state in which `0 ≤ size ≤ NPROC` still. -/
theorem capacity_bound (cfg : Config) (s : State) (hr : Reachable cfg s) :
    0 ≤ s.q.size ∧ s.q.size ≤ (cfg.NPROC : Int) ∧
      (∀ pid, s.q.size = (cfg.NPROC : Int) → enqueue cfg pid s = some (cfg.SYSERR, s)) ∧
      (∀ c, ∃ r s2, step cfg c s = some (r, s2) ∧
        0 ≤ s2.q.size ∧ s2.q.size ≤ (cfg.NPROC : Int)) := by
  obtain ⟨l, hrep, hlen⟩ := reachable_rep hr
  refine ⟨?_, ?_, ?_, ?_⟩
  · rw [hrep.2.2.2.2]
    exact Int.natCast_nonneg _
  · rw [hrep.2.2.2.2]
    exact_mod_cast hlen
  · intro pid hfull
    simp [enqueue, isfull, hfull]
  · intro c
    obtain ⟨r, s2, l2, h1, -, -, -⟩ := step_refines cfg c hrep
    obtain ⟨l3, hrep3, hlen3⟩ := reachable_rep (Reachable.call c r hr h1)
    refine ⟨r, s2, h1, ?_, ?_⟩
    · rw [hrep3.2.2.2.2]
      exact Int.natCast_nonneg _
    · rw [hrep3.2.2.2.2]
      exact_mod_cast hlen3

/-- Witness of C9: the state after `enqueue(1)` on a new queue. -/
theorem capacity_bound_witness :
    ∃ s, enqueue sampleCfg 1 (newqueue []) = some (1, s) ∧
      0 ≤ s.q.size ∧ s.q.size ≤ (sampleCfg.NPROC : Int) :=
  ⟨_, rfl,
    (capacity_bound sampleCfg _
      (Reachable.call (Call.enqueue 1) (Ret.val 1) (Reachable.init []) rfl)).1,
    (capacity_bound sampleCfg _
      (Reachable.call (Call.enqueue 1) (Ret.val 1) (Reachable.init []) rfl)).2.1⟩

/-- C10. Invalid identifiers are refused without effect: for a pid the
validator rejects, `enqueue` returns `SYSERR` on every queue and `remove`
returns `SYSERR` on every non-empty queue, and the state (head, tail, size
and every entry) is the one before the call. -/
theorem invalid_pid_refused (cfg : Config) (s : State) (pid : pid32)
    (hb : cfg.isbadpid pid = true) :
    enqueue cfg pid s = some (cfg.SYSERR, s) ∧
      (isempty s.q = false → remove cfg pid s = some (cfg.SYSERR, s)) := by
  constructor
  · simp [enqueue, hb]
  · intro he
    simp [remove, he, hb]

/-- Witness of C10: pid `9` is rejected by the validator of `sampleCfg`. -/
theorem invalid_pid_refused_witness :
    WellFormed s123 ∧ enqueue sampleCfg 9 s123 = some (sampleCfg.SYSERR, s123) ∧
      remove sampleCfg 9 s123 = some (sampleCfg.SYSERR, s123) :=
  ⟨rep_wellFormed rep_s123, (invalid_pid_refused sampleCfg s123 9 (by decide)).1,
    (invalid_pid_refused sampleCfg s123 9 (by decide)).2 (by decide)⟩

theorem getbypid_first (cfg : Config) (pid : pid32) {s : State} {l : List (Nat × pid32)}
    (hr : Rep s l) (he : isempty s.q = false) (hb : cfg.isbadpid pid = false) :
    getbypid cfg pid s =
      some ((l.find? (fun x => decide (x.2 = pid))).map Prod.fst, s) := by
  simp [getbypid, he, hb, hr.2.2.1, getbypidLoop_seg pid hr.2.1 (seg_length_le hr.1 hr.2.1)]

theorem getbypid_spec (cfg : Config) (pid : pid32) {s : State} {l : List (Nat × pid32)}
    (hr : Rep s l) :
    ∃ r, getbypid cfg pid s = some (r, s) ∧
      (r = none ↔ (isempty s.q = true ∨ cfg.isbadpid pid = true ∨ ∀ x ∈ l, x.2 ≠ pid)) ∧
      (∀ a, r = some a → ∃ l1 l2, l = l1 ++ (a, pid) :: l2 ∧ ∀ x ∈ l1, x.2 ≠ pid) := by
  by_cases he : isempty s.q = true
  · exact ⟨none, by simp [getbypid, he], by simp [he], by simp⟩
  · by_cases hb : cfg.isbadpid pid = true
    · exact ⟨none, by simp [getbypid, hb], by simp [hb], by simp⟩
    · simp only [Bool.not_eq_true] at he hb
      refine ⟨_, getbypid_first cfg pid hr he hb, ?_, ?_⟩
      · simp [he, hb, List.find?_eq_none]
      · intro a ha
        simp only [Option.map_eq_some'] at ha
        obtain ⟨x, hx, rfl⟩ := ha
        obtain ⟨hp, l1, l2, hl, h1⟩ := List.find?_eq_some.1 hx
        simp only [decide_eq_true_eq] at hp
        refine ⟨l1, l2, ?_, ?_⟩
        · rw [hl, ← hp]
        · intro y hy
          simpa using h1 y hy

/-- C11. Lookup by pid: on a well-formed queue `getbypid(pid, q)` returns
without modifying the state; the pointer it returns is `NULL` if and only if
the queue is empty, or the validator rejects `pid`, or no entry carries
`pid`; otherwise it points to the first entry, in head-to-tail order, whose
pid is `pid`. -/
theorem getbypid_lookup (cfg : Config) (s : State) (l : List (Nat × pid32)) (pid : pid32)
    (hw : WellFormed s) (hc : chain s = some l) :
    ∃ r, getbypid cfg pid s = some (r, s) ∧
      (r = none ↔ (isempty s.q = true ∨ cfg.isbadpid pid = true ∨ ∀ x ∈ l, x.2 ≠ pid)) ∧
      (∀ a, r = some a → ∃ l1 l2, l = l1 ++ (a, pid) :: l2 ∧ ∀ x ∈ l1, x.2 ≠ pid) :=
  getbypid_spec cfg pid (wellFormed_chain hw hc)

/-- Witness of C11: in the queue holding `1, 2, 3` the entry carrying `2` is
the one at address `1`. -/
theorem getbypid_lookup_witness :
    ∃ r, getbypid sampleCfg 2 s123 = some (r, s123) ∧
      (r = none ↔ (isempty s123.q = true ∨ sampleCfg.isbadpid 2 = true ∨
        ∀ x ∈ [((0 : Nat), (1 : pid32)), (1, 2), (2, 3)], x.2 ≠ 2)) ∧
      (∀ a, r = some a → ∃ l1 l2, [((0 : Nat), (1 : pid32)), (1, 2), (2, 3)] =
        l1 ++ (a, 2) :: l2 ∧ ∀ x ∈ l1, x.2 ≠ 2) :=
  getbypid_lookup sampleCfg s123 [(0, 1), (1, 2), (2, 3)] 2 (rep_wellFormed rep_s123)
    (by decide)

theorem absStep_nodup (cfg : Config) (c : Call) (ps : List pid32) (hn : ps.Nodup)
    (hc : ∀ pid, c = Call.enqueue pid → pid ∉ ps) : (absStep cfg c ps).2.Nodup := by
  cases c with
  | enqueue pid =>
    simp only [absStep]
    split_ifs
    · exact hn
    · rw [List.nodup_append]
      refine ⟨hn, by simp, ?_⟩
      intro a ha hb
      rw [List.mem_singleton.1 hb] at ha
      exact hc pid rfl ha
  | dequeue =>
    cases ps with
    | nil => exact hn
    | cons x t => exact (List.nodup_cons.1 hn).2
  | getfirst =>
    cases ps with
    | nil => exact hn
    | cons x t => exact (List.nodup_cons.1 hn).2
  | getlast =>
    simp only [absStep]
    split
    · exact hn
    · exact hn.sublist (List.dropLast_sublist _)
  | remove pid =>
    simp only [absStep, removedPids]
    split_ifs <;> first
      | exact hn
      | exact hn.sublist (List.tail_sublist _)
      | exact hn.sublist (List.dropLast_sublist _)
      | exact hn.sublist (List.erase_sublist _ _)
  | getbypid pid => exact hn

theorem reachableFresh_rep {cfg : Config} {s : State} (h : ReachableFresh cfg s) :
    ∃ l, Rep s l ∧ (l.map Prod.snd).Nodup := by
  induction h with
  | init mem => exact ⟨[], rep_newqueue mem, List.nodup_nil⟩
  | call c r _ hf hs ih =>
    obtain ⟨l, hr, hn⟩ := ih
    obtain ⟨r2, s3, l2, h1, h2, -, h4⟩ := step_refines cfg c hr
    rw [h1] at hs
    cases hs
    refine ⟨l2, h2, ?_⟩
    rw [h4]
    exact absStep_nodup cfg c _ hn (fun pid hc => hf pid _ hc (rep_pids hr))

/-- C12, counterexample. After `enqueue(1)`, `enqueue(1)` on a new queue both
calls have succeeded and two linked entries carry the pid `1`; `getbypid(1)`
returns the first of them. -/
theorem duplicate_pids_reachable :
    Reachable sampleCfg sDup ∧ chain sDup = some [(0, 1), (1, 1)] ∧
      pids sDup = some [1, 1] ∧ ¬ ([1, 1] : List pid32).Nodup ∧
      getbypid sampleCfg 1 sDup = some (some 0, sDup) :=
  ⟨Reachable.call (Call.enqueue 1) (Ret.val 1)
      (Reachable.call (Call.enqueue 1) (Ret.val 1) (Reachable.init []) rfl) rfl,
    by decide, by decide, by decide, by decide⟩

/-- C12, amended. In every state reached from `newqueue` by calls in which
`enqueue` is never given a pid that an entry carries at the time of the call,
no two linked entries carry the same pid; so an entry returned by `getbypid`
is the only entry with that pid, and after a `remove` of a carried valid pid
no entry carries it any more. -/
theorem pids_unique_when_fresh (cfg : Config) (s : State) (h : ReachableFresh cfg s) :
    ∃ l, chain s = some l ∧ (l.map Prod.snd).Nodup ∧
      (∀ pid a, getbypid cfg pid s = some (some a, s) →
        ∀ x ∈ l, x.2 = pid → x.1 = a) ∧
      (∀ pid, pid ∈ l.map Prod.snd → cfg.isbadpid pid = false →
        ∃ s2 ps2, remove cfg pid s = some (pid, s2) ∧ pids s2 = some ps2 ∧ pid ∉ ps2) := by
  obtain ⟨l, hr, hn⟩ := reachableFresh_rep h
  refine ⟨l, rep_chain hr, hn, ?_, ?_⟩
  · intro pid a hg x hx hxp
    obtain ⟨r, hg2, -, hfirst⟩ := getbypid_spec cfg pid hr
    rw [hg2] at hg
    simp only [Option.some.injEq, Prod.mk.injEq, and_true] at hg
    obtain ⟨l1, l2, hl, -⟩ := hfirst a hg
    have hmem : (a, pid) ∈ l := by rw [hl]; simp
    have := List.inj_on_of_nodup_map hn hx hmem (by simpa using hxp)
    rw [this]
  · intro pid hp hb
    obtain ⟨s2, l2, h1, hr2, hl2, -⟩ := remove_found hr hp hb
    refine ⟨s2, _, h1, rep_pids hr2, ?_⟩
    rw [hl2, removedPids_nodup hn]
    exact hn.not_mem_erase

theorem fresh_of_pids {s : State} {c : Call} (qs : List pid32) (h : pids s = some qs)
    (hc : ∀ pid, c = Call.enqueue pid → pid ∉ qs) :
    ∀ pid ps, c = Call.enqueue pid → pids s = some ps → pid ∉ ps := by
  intro pid ps hcp hps
  rw [h] at hps
  cases hps
  exact hc pid hcp

theorem reachableFresh_s123 : ReachableFresh sampleCfg s123 := by
  have h0 : ReachableFresh sampleCfg (newqueue []) := ReachableFresh.init []
  have h1 : ReachableFresh sampleCfg
      { mem := [some { pid := 1, prev := none, next := none }],
        q := { head := some 0, tail := some 0, size := 1 } } :=
    ReachableFresh.call (Call.enqueue 1) (Ret.val 1) h0
      (fresh_of_pids [] (by decide) (fun pid _ => List.not_mem_nil pid)) rfl
  have h2 : ReachableFresh sampleCfg
      { mem := [some { pid := 1, prev := none, next := some 1 },
                some { pid := 2, prev := some 0, next := none }],
        q := { head := some 0, tail := some 1, size := 2 } } :=
    ReachableFresh.call (Call.enqueue 2) (Ret.val 2) h1
      (fresh_of_pids [1] (by decide) (by
        intro pid hc
        cases hc
        decide)) rfl
  exact ReachableFresh.call (Call.enqueue 3) (Ret.val 3) h2
    (fresh_of_pids [1, 2] (by decide) (by
      intro pid hc
      cases hc
      decide)) rfl

/-- Witness of C12 (amended): the queue holding `1, 2, 3`, reached by three
calls of `enqueue`, the second and the third on a non-empty queue none of
whose entries carries the new pid. -/
theorem pids_unique_when_fresh_witness :
    ∃ l, chain s123 = some l ∧ (l.map Prod.snd).Nodup ∧
      (∀ pid a, getbypid sampleCfg pid s123 = some (some a, s123) →
        ∀ x ∈ l, x.2 = pid → x.1 = a) ∧
      (∀ pid, pid ∈ l.map Prod.snd → sampleCfg.isbadpid pid = false →
        ∃ s2 ps2, remove sampleCfg pid s123 = some (pid, s2) ∧ pids s2 = some ps2 ∧
          pid ∉ ps2) :=
  pids_unique_when_fresh sampleCfg s123 reachableFresh_s123

/-- C13. `getlast` mirrors `dequeue`: on a well-formed non-empty queue with
pid sequence `ps`, `getlast` returns the last pid of `ps`, decrements `size`
by one and leaves a well-formed queue holding `ps` without its last element
(head and tail both `NULL` when `ps` had one element; otherwise the head
stays, the predecessor of the old tail becomes the tail and its `next` is
`NULL`); `dequeue` returns the first pid of `ps`, decrements `size` by one
and leaves a well-formed queue holding `ps` without its first element. -/
theorem getlast_mirrors_dequeue (cfg : Config) (s : State) (ps : List pid32)
    (hw : WellFormed s) (hps : pids s = some ps) (hne : ps ≠ []) :
    (∃ v s1, ps.getLast? = some v ∧ getlast cfg s = some (v, s1) ∧
      s1.q.size = s.q.size - 1 ∧ WellFormed s1 ∧ pids s1 = some ps.dropLast ∧
      (ps.length = 1 → s1.q.head = none ∧ s1.q.tail = none) ∧
      (1 < ps.length → s1.q.head = s.q.head ∧
        ∃ te e, deref s.mem s.q.tail = some te ∧ s1.q.tail = te.prev ∧
          deref s1.mem s1.q.tail = some e ∧ e.next = none)) ∧
    (∃ w s2, ps.head? = some w ∧ dequeue cfg s = some (w, s2) ∧
      s2.q.size = s.q.size - 1 ∧ WellFormed s2 ∧ pids s2 = some ps.tail) := by
  obtain ⟨l, hr, rfl⟩ := wellFormed_pids hw hps
  have hl : l ≠ [] := fun h => hne (by simp [h])
  constructor
  · rcases snoc_cases l with rfl | ⟨l0, x, rfl⟩
    · exact absurd rfl hl
    · obtain ⟨s1, hg, hr1⟩ := getlast_rep cfg hr
      refine ⟨x.2, s1, by simp, hg, ?_, rep_wellFormed hr1, ?_, ?_, ?_⟩
      · rw [hr1.2.2.2.2, hr.2.2.2.2]
        simp
      · rw [rep_pids hr1]
        simp
      · intro h1
        have : l0 = [] := by
          simp only [List.map_append, List.length_append, List.length_map, List.map_cons,
            List.map_nil, List.length_cons, List.length_nil] at h1
          exact List.length_eq_zero.1 (by omega)
        subst this
        exact ⟨hr1.2.2.1, hr1.2.2.2.1⟩
      · intro h1
        rcases snoc_cases l0 with rfl | ⟨l1, y, rfl⟩
        · simp at h1
        · refine ⟨?_, _, _, rep_tail_load hr, ?_, rep_tail_load hr1, rfl⟩
          · rw [hr1.2.2.1, hr.2.2.1]
            simp [hdOr_append]
          · exact hr1.2.2.2.1
  · cases l with
    | nil => exact absurd rfl hl
    | cons x t =>
      obtain ⟨s2, hd, hr2⟩ := dequeue_rep cfg hr
      refine ⟨x.2, s2, rfl, hd, ?_, rep_wellFormed hr2, ?_⟩
      · rw [hr2.2.2.2.2, hr.2.2.2.2]
        simp
      · rw [rep_pids hr2]
        rfl

/-- Witness of C13: the queue holding `1, 2, 3`. -/
theorem getlast_mirrors_dequeue_witness :
    (∃ v s1, ([1, 2, 3] : List pid32).getLast? = some v ∧
      getlast sampleCfg s123 = some (v, s1) ∧
      s1.q.size = s123.q.size - 1 ∧ WellFormed s1 ∧
      pids s1 = some ([1, 2, 3] : List pid32).dropLast ∧
      (([1, 2, 3] : List pid32).length = 1 → s1.q.head = none ∧ s1.q.tail = none) ∧
      (1 < ([1, 2, 3] : List pid32).length → s1.q.head = s123.q.head ∧
        ∃ te e, deref s123.mem s123.q.tail = some te ∧ s1.q.tail = te.prev ∧
          deref s1.mem s1.q.tail = some e ∧ e.next = none)) ∧
    (∃ w s2, ([1, 2, 3] : List pid32).head? = some w ∧
      dequeue sampleCfg s123 = some (w, s2) ∧
      s2.q.size = s123.q.size - 1 ∧ WellFormed s2 ∧
      pids s2 = some ([1, 2, 3] : List pid32).tail) :=
  getlast_mirrors_dequeue sampleCfg s123 [1, 2, 3] (rep_wellFormed rep_s123) (by decide)
    (by decide)

/-- C14. `getfirst` is `dequeue`: in every state, empty or not, well-formed
or not, the two calls return the same value and leave the same state. -/
theorem getfirst_eq_dequeue (cfg : Config) (s : State) : getfirst cfg s = dequeue cfg s := by
  unfold getfirst
  split_ifs with h
  · simp [dequeue, h]
  · rfl

theorem rep_queue_eq {s s2 : State} {l : List (Nat × pid32)} (h : Rep s l) (h2 : Rep s2 l) :
    s2.q = s.q := by
  obtain ⟨-, -, a1, a2, a3⟩ := h
  obtain ⟨-, -, b1, b2, b3⟩ := h2
  cases hq : s.q with
  | mk h1 t1 z1 =>
    cases hq2 : s2.q with
    | mk h3 t3 z3 =>
      rw [hq] at a1 a2 a3
      rw [hq2] at b1 b2 b3
      simp only at a1 a2 a3 b1 b2 b3
      rw [a1, a2, a3, b1, b2, b3]

theorem enqueue_remove_rep (cfg : Config) {s : State} {l : List (Nat × pid32)} {p : pid32}
    (hr : Rep s l) (hnf : isfull cfg s.q = false) (hp : p ∉ l.map Prod.snd)
    (hv : cfg.isbadpid p = false) :
    ∃ s1 s2, enqueue cfg p s = some (p, s1) ∧ remove cfg p s1 = some (p, s2) ∧ Rep s2 l := by
  obtain ⟨s1, h1, hr1⟩ := enqueue_rep p hr hnf hv
  cases l with
  | nil =>
    obtain ⟨s2, h2, hr2⟩ := remove_head (by simpa using hr1) hv rfl
    exact ⟨s1, s2, h1, h2, hr2⟩
  | cons y r =>
    have hy : y.2 ≠ p := by
      intro h
      apply hp
      rw [← h]
      simp
    obtain ⟨s2, h2, hr2⟩ := remove_last (by simpa using hr1) hv hy rfl
    exact ⟨s1, s2, h1, h2, hr2⟩

theorem round_trip_newqueue (cfg : Config) (mem : Heap) (p : pid32) (hN : 0 < cfg.NPROC)
    (hv : cfg.isbadpid p = false) :
    ∃ s1 s2, enqueue cfg p (newqueue mem) = some (p, s1) ∧ remove cfg p s1 = some (p, s2) ∧
      isempty s2.q = true ∧ s2.q = (newqueue mem).q := by
  have hnf : isfull cfg (newqueue mem).q = false := by
    simp only [isfull, newqueue, ge_iff_le, decide_eq_false_iff_not, not_le]
    exact_mod_cast hN
  obtain ⟨s1, s2, h1, h2, hr2⟩ :=
    enqueue_remove_rep cfg (rep_newqueue mem) hnf (by simp) hv
  exact ⟨s1, s2, h1, h2, by simp [rep_isempty hr2], rep_queue_eq (rep_newqueue mem) hr2⟩

/-- C15. Round trip: on a well-formed queue that is not full and holds no
entry carrying the valid pid `p` (a queue new from `newqueue` when `NPROC` is
positive), `enqueue(p, q)` returns `p` and `remove(p, q)` after it returns `p`
and restores head, tail and size, the chain of entries and the pid sequence;
the empty queue is empty again. -/
theorem enqueue_remove_round_trip (cfg : Config) (s : State) (ps : List pid32) (p : pid32)
    (hw : WellFormed s) (hps : pids s = some ps) (hnf : isfull cfg s.q = false)
    (hp : p ∉ ps) (hv : cfg.isbadpid p = false) :
    ∃ s1 s2, enqueue cfg p s = some (p, s1) ∧ remove cfg p s1 = some (p, s2) ∧
      s2.q = s.q ∧ isempty s2.q = isempty s.q ∧ chain s2 = chain s ∧ pids s2 = some ps ∧
      WellFormed s2 := by
  obtain ⟨l, hr, rfl⟩ := wellFormed_pids hw hps
  obtain ⟨s1, s2, h1, h2, hr2⟩ := enqueue_remove_rep cfg hr hnf hp hv
  have hq := rep_queue_eq hr hr2
  exact ⟨s1, s2, h1, h2, hq, by rw [hq], by rw [rep_chain hr2, rep_chain hr], rep_pids hr2,
    rep_wellFormed hr2⟩

/-- Witness of C15: pid `5` on the queue `newqueue` creates. -/
theorem enqueue_remove_round_trip_witness :
    ∃ s1 s2, enqueue sampleCfg 5 (newqueue []) = some (5, s1) ∧
      remove sampleCfg 5 s1 = some (5, s2) ∧
      s2.q = (newqueue []).q ∧ isempty s2.q = isempty (newqueue []).q ∧
      chain s2 = chain (newqueue []) ∧ pids s2 = some [] ∧ WellFormed s2 :=
  enqueue_remove_round_trip sampleCfg (newqueue []) [] 5 (rep_wellFormed (rep_newqueue []))
    (by decide) (by decide) (by decide) (by decide)

/-- C16, counterexample. `enqueue` returns the same value `SYSERR` when it
refuses a valid pid on a full queue and when it refuses a rejected pid on a
queue that is not full, and `remove` on a non-empty queue returns the same
value `SYSERR` for a rejected pid and for a valid pid no entry carries. -/
theorem refusals_share_SYSERR :
    (isfull sampleCfg sFull.q = true ∧ sampleCfg.isbadpid 2 = false ∧
      enqueue sampleCfg 2 sFull = some (-1, sFull)) ∧
    (isfull sampleCfg s123.q = false ∧ sampleCfg.isbadpid 9 = true ∧
      enqueue sampleCfg 9 s123 = some (-1, s123)) ∧
    (isempty s123.q = false ∧ remove sampleCfg 9 s123 = some (-1, s123)) ∧
    (sampleCfg.isbadpid 0 = false ∧ pids s123 = some [1, 2, 3] ∧
      remove sampleCfg 0 s123 = some (-1, s123)) := by
  decide

/-- C16, amended. Refusals carry one error value: `enqueue` returns `SYSERR`
when it refuses for capacity and when it refuses a pid the validator rejects,
and on a non-empty well-formed queue `remove` returns `SYSERR` for a pid the
validator rejects and for a pid that no entry carries; every such refusal
leaves the state as it was. -/
theorem refusals_return_SYSERR (cfg : Config) (s t u : State) (p q r : pid32)
    (ps : List pid32) (hfull : isfull cfg s.q = true) (hq : cfg.isbadpid q = true)
    (hw : WellFormed u) (hne : isempty u.q = false) (hps : pids u = some ps) (hr : r ∉ ps) :
    enqueue cfg p s = some (cfg.SYSERR, s) ∧ enqueue cfg q t = some (cfg.SYSERR, t) ∧
      remove cfg q u = some (cfg.SYSERR, u) ∧ remove cfg r u = some (cfg.SYSERR, u) := by
  refine ⟨by simp [enqueue, hfull], by simp [enqueue, hq], by simp [remove, hne, hq], ?_⟩
  obtain ⟨l, hrep, rfl⟩ := wellFormed_pids hw hps
  by_cases hb : cfg.isbadpid r = true
  · simp [remove, hne, hb]
  · simp only [Bool.not_eq_true] at hb
    have hl : l ≠ [] := by
      intro h
      rw [rep_isempty hrep, h] at hne
      simp at hne
    exact remove_absent hrep hl hb (fun x hx hxp => hr (hxp ▸ List.mem_map_of_mem _ hx))

/-- Witness of C16 (amended): the four refusals on the sample queues. -/
theorem refusals_return_SYSERR_witness :
    enqueue sampleCfg 2 sFull = some (sampleCfg.SYSERR, sFull) ∧
      enqueue sampleCfg 9 s123 = some (sampleCfg.SYSERR, s123) ∧
      remove sampleCfg 9 s123 = some (sampleCfg.SYSERR, s123) ∧
      remove sampleCfg 0 s123 = some (sampleCfg.SYSERR, s123) :=
  refusals_return_SYSERR sampleCfg sFull s123 s123 2 9 0 [1, 2, 3] (by decide) (by decide)
    (rep_wellFormed rep_s123) (by decide) (by decide) (by decide)

theorem printqueueLoop_seg {m : Heap} {p : Option Nat} {l : List (Nat × pid32)} {fuel : Nat}
    (h : Seg m p l none) (hf : l.length ≤ fuel) :
    printqueueLoop m fuel (hdOr l none) =
      some (if l = [] then "" else renderEntries (l.map Prod.snd) ++ "]\n") := by
  induction l generalizing p fuel with
  | nil => cases fuel <;> rfl
  | cons x t ih =>
    cases fuel with
    | zero => simp at hf
    | succ fuel =>
      have hrec := ih h.2 (by simpa using hf)
      have h1 := h.1
      cases t with
      | nil =>
        simp only [hdOr_nil] at h1 hrec
        simp only [hdOr_cons, printqueueLoop, h1, hrec, if_true, List.map_cons, List.map_nil,
          renderEntries, reduceCtorEq, if_false, Option.some.injEq]
        rw [String.append_empty, String.append_assoc ("(pid=" ++ toString x.2) ")" "]\n"]
        rfl
      | cons y t =>
        simp only [hdOr_cons] at h1 hrec
        simp only [hdOr_cons, printqueueLoop, h1, hrec, reduceCtorEq, if_false, List.map_cons,
          renderEntries, Option.some.injEq]
        simp only [String.append_assoc]

theorem printqueue_rep {s : State} {l : List (Nat × pid32)} (hr : Rep s l) (hl : l ≠ []) :
    printqueue s = some (rendering (l.map Prod.snd) ++ "\n", s) := by
  unfold printqueue
  rw [hr.2.2.1, printqueueLoop_seg hr.2.1 (seg_length_le hr.1 hr.2.1)]
  simp only [hl, if_false, rendering, Option.some.injEq, Prod.mk.injEq, and_true]
  simp only [String.append_assoc]
  rfl

theorem printqueue_nonempty (s : State) (ps : List pid32) (hw : WellFormed s)
    (hps : pids s = some ps) (hne : ps ≠ []) :
    printqueue s = some (rendering ps ++ "\n", s) := by
  obtain ⟨l, hr, rfl⟩ := wellFormed_pids hw hps
  exact printqueue_rep hr (fun h => hne (by simp [h]))

theorem printqueue_s123 :
    printqueue s123 = some ("[(pid=1), (pid=2), (pid=3)]\n", s123) := by
  decide

/-- C18, the failing input. On the empty queue `printqueue` prints the
opening bracket only, while the rendering of no entry is `[]`. -/
theorem printqueue_empty_prints_open_bracket (mem : Heap) :
    printqueue (newqueue mem) = some ("[", newqueue mem) ∧ rendering [] = "[]" := by
  constructor
  · unfold printqueue newqueue
    cases mem <;> rfl
  · decide

theorem rep_s1232 : Rep s1232 [(0, 1), (1, 2), (2, 3), (3, 2)] := by
  simp [Rep, Seg, s1232, load]

theorem remove_unlinks (cfg : Config) {s : State} {l : List (Nat × pid32)} {p : pid32}
    (hr : Rep s l) (hp : p ∈ l.map Prod.snd) (hv : cfg.isbadpid p = false) :
    ∃ a l1 l2 s2, l = l1 ++ (a, p) :: l2 ∧ (∀ x ∈ l1, x.2 ≠ p) ∧
      getbypid cfg p s = some (some a, s) ∧ remove cfg p s = some (p, s2) ∧
      ((l1 = [] ∨ ∀ y, l.getLast? = some y → y.2 ≠ p) → Rep s2 (l1 ++ l2)) ∧
      ((l1 ≠ [] ∧ ∃ y, l.getLast? = some y ∧ y.2 = p) → Rep s2 l.dropLast) := by
  obtain ⟨r, hg, hnone, hfirst⟩ := getbypid_spec cfg p hr
  have hl : l ≠ [] := by
    intro h
    rw [h] at hp
    simp at hp
  have hrs : ∃ a, r = some a := by
    cases r with
    | some a => exact ⟨a, rfl⟩
    | none =>
      exfalso
      rcases hnone.1 rfl with h | h | h
      · rw [rep_isempty hr] at h
        simp [hl] at h
      · rw [hv] at h
        exact Bool.noConfusion h
      · obtain ⟨x, hx, hxp⟩ := List.mem_map.1 hp
        exact h x hx hxp
  obtain ⟨a, rfl⟩ := hrs
  obtain ⟨l1, l2, rfl, h1⟩ := hfirst a rfl
  refine ⟨a, l1, l2, ?_⟩
  cases l1 with
  | nil =>
    obtain ⟨s2, h2, hr2⟩ := remove_head hr hv rfl
    exact ⟨s2, rfl, h1, hg, h2, fun _ => hr2, fun h => absurd rfl h.1⟩
  | cons y r1 =>
    have hy : y.2 ≠ p := h1 y (List.mem_cons_self _ _)
    rcases snoc_cases l2 with rfl | ⟨l3, z, rfl⟩
    · have hr3 : Rep s (y :: r1 ++ [(a, p)]) := by simpa using hr
      obtain ⟨s2, h2, hr2⟩ := remove_last hr3 hv hy rfl
      refine ⟨s2, rfl, h1, hg, h2, fun _ => by simpa using hr2, fun _ => ?_⟩
      have : (y :: r1 ++ [(a, p)]).dropLast = y :: r1 := List.dropLast_concat
      rw [this]
      exact hr2
    · have hlast : (y :: r1 ++ (a, p) :: (l3 ++ [z])).getLast? = some z := by
        have : y :: r1 ++ (a, p) :: (l3 ++ [z]) = (y :: r1 ++ (a, p) :: l3) ++ [z] := by simp
        rw [this, List.getLast?_concat]
      by_cases hz : z.2 = p
      · have hr3 : Rep s (y :: (r1 ++ (a, p) :: l3) ++ [z]) := by simpa using hr
        obtain ⟨s2, h2, hr2⟩ := remove_last hr3 hv hy hz
        refine ⟨s2, rfl, h1, hg, h2, fun h => ?_, fun _ => ?_⟩
        · rcases h with h | h
          · exact absurd h (by simp)
          · exact absurd hz (h z hlast)
        · have : (y :: r1 ++ (a, p) :: (l3 ++ [z])).dropLast = y :: (r1 ++ (a, p) :: l3) := by
            have e : y :: r1 ++ (a, p) :: (l3 ++ [z]) = (y :: (r1 ++ (a, p) :: l3)) ++ [z] := by
              simp
            rw [e, List.dropLast_concat]
          rw [this]
          exact hr2
      · have hr3 : Rep s (y :: r1 ++ (a, p) :: (l3 ++ [z])) := by simpa using hr
        obtain ⟨s2, h2, hr2⟩ := remove_mid hr3 hv hy
          (fun x hx => h1 x (List.mem_cons_of_mem _ hx)) rfl hz
        refine ⟨s2, rfl, h1, hg, h2, fun _ => by simpa using hr2, fun h => ?_⟩
        obtain ⟨-, w, hw, hwp⟩ := h
        rw [hlast] at hw
        cases hw
        exact absurd hwp hz

/-- C19, counterexample. In the reachable queue holding `1, 2, 3, 2`,
`getbypid(2)` returns the entry at address `1` (the first carrying `2`) while
`remove(2)` unlinks the tail entry at address `3` and leaves `1, 2, 3`, not
`1, 3, 2`. -/
theorem remove_unlinks_tail_not_first :
    Reachable sampleCfg s1232 ∧ chain s1232 = some [(0, 1), (1, 2), (2, 3), (3, 2)] ∧
      getbypid sampleCfg 2 s1232 = some (some 1, s1232) ∧
      (remove sampleCfg 2 s1232).map Prod.fst = some 2 ∧
      (remove sampleCfg 2 s1232).bind (fun r => chain r.2) = some [(0, 1), (1, 2), (2, 3)] ∧
      (remove sampleCfg 2 s1232).bind (fun r => pids r.2) = some [1, 2, 3] ∧
      ([1, 2, 3, 2] : List pid32).erase 2 = [1, 3, 2] :=
  ⟨Reachable.call (Call.enqueue 2) (Ret.val 2)
      (Reachable.call (Call.enqueue 3) (Ret.val 3)
        (Reachable.call (Call.enqueue 2) (Ret.val 2)
          (Reachable.call (Call.enqueue 1) (Ret.val 1) (Reachable.init []) rfl) rfl) rfl) rfl,
    by decide, by decide, by decide, by decide, by decide, by decide⟩

/-- C19, amended. On a well-formed non-empty queue (duplicate pids allowed)
and for a valid pid `p` carried by some entry, `getbypid(p, q)` returns the
first entry carrying `p` and `remove(p, q)` returns `p`. When the head
carries `p` or the tail does not, `remove` unlinks exactly the entry
`getbypid` returns, and the pid sequence left is the old one with its first
occurrence of `p` erased. When the head does not carry `p` and the tail does,
`remove` unlinks the tail entry. -/
theorem remove_agrees_with_getbypid (cfg : Config) (s : State) (l : List (Nat × pid32))
    (p : pid32) (hw : WellFormed s) (hc : chain s = some l) (hp : p ∈ l.map Prod.snd)
    (hv : cfg.isbadpid p = false) :
    ∃ a l1 l2 s2, l = l1 ++ (a, p) :: l2 ∧ (∀ x ∈ l1, x.2 ≠ p) ∧
      getbypid cfg p s = some (some a, s) ∧ remove cfg p s = some (p, s2) ∧
      ((l1 = [] ∨ ∀ y, l.getLast? = some y → y.2 ≠ p) →
        WellFormed s2 ∧ chain s2 = some (l1 ++ l2) ∧
          pids s2 = some ((l.map Prod.snd).erase p)) ∧
      ((l1 ≠ [] ∧ ∃ y, l.getLast? = some y ∧ y.2 = p) →
        WellFormed s2 ∧ chain s2 = some l.dropLast) := by
  obtain ⟨a, l1, l2, s2, hl, h1, hg, hrm, hA, hB⟩ :=
    remove_unlinks cfg (wellFormed_chain hw hc) hp hv
  refine ⟨a, l1, l2, s2, hl, h1, hg, hrm, fun h => ?_, fun h => ?_⟩
  · have hr2 := hA h
    refine ⟨rep_wellFormed hr2, rep_chain hr2, ?_⟩
    rw [rep_pids hr2, hl]
    have hnm : p ∉ l1.map Prod.snd := by
      intro hm
      obtain ⟨x, hx, hxp⟩ := List.mem_map.1 hm
      exact h1 x hx hxp
    rw [List.map_append, List.map_append, List.erase_append_right _ hnm]
    simp
  · exact ⟨rep_wellFormed (hB h), rep_chain (hB h)⟩

/-- Witness of C19 (amended): `remove(2)` on the queue holding `1, 2, 3`. -/
theorem remove_agrees_with_getbypid_witness :
    ∃ a l1 l2 s2, [((0 : Nat), (1 : pid32)), (1, 2), (2, 3)] = l1 ++ (a, 2) :: l2 ∧
      (∀ x ∈ l1, x.2 ≠ 2) ∧
      getbypid sampleCfg 2 s123 = some (some a, s123) ∧
      remove sampleCfg 2 s123 = some (2, s2) ∧
      ((l1 = [] ∨ ∀ y, [((0 : Nat), (1 : pid32)), (1, 2), (2, 3)].getLast? = some y →
          y.2 ≠ 2) →
        WellFormed s2 ∧ chain s2 = some (l1 ++ l2) ∧
          pids s2 = some (([((0 : Nat), (1 : pid32)), (1, 2), (2, 3)].map Prod.snd).erase 2)) ∧
      ((l1 ≠ [] ∧ ∃ y, [((0 : Nat), (1 : pid32)), (1, 2), (2, 3)].getLast? = some y ∧
          y.2 = 2) →
        WellFormed s2 ∧
          chain s2 = some [((0 : Nat), (1 : pid32)), (1, 2), (2, 3)].dropLast) :=
  remove_agrees_with_getbypid sampleCfg s123 [(0, 1), (1, 2), (2, 3)] 2
    (rep_wellFormed rep_s123) (by decide) (by decide) (by decide)

theorem hdOr_mem {l : List (Nat × pid32)} (h : l ≠ []) :
    ∃ z ∈ l, ∀ d, hdOr l d = some z.1 := by
  cases l with
  | nil => exact absurd rfl h
  | cons x t => exact ⟨x, List.mem_cons_self _ _, fun _ => rfl⟩

theorem lastOr_mem {l : List (Nat × pid32)} (h : l ≠ []) :
    ∃ z ∈ l, ∀ d, lastOr l d = some z.1 := by
  rcases snoc_cases l with rfl | ⟨l0, x, rfl⟩
  · exact absurd rfl h
  · exact ⟨x, by simp, fun d => by simp [lastOr_append]⟩

theorem seg_deref {m : Heap} {p n : Option Nat} {l : List (Nat × pid32)} (h : Seg m p l n)
    {z : Nat × pid32} (hz : z ∈ l) : ∃ e, deref m (some z.1) = some e := by
  obtain ⟨e, he, -⟩ := seg_load h z hz
  exact ⟨e, he⟩

theorem step_isSome (cfg : Config) (c : Call) {s : State} {l : List (Nat × pid32)}
    (hr : Rep s l) : (step cfg c s).isSome = true := by
  obtain ⟨r, s2, l2, h1, -, -, -⟩ := step_refines cfg c hr
  rw [h1]
  rfl

theorem rep_ends {s : State} {l : List (Nat × pid32)} (hr : Rep s l)
    (he : isempty s.q = false) :
    ∃ he te, deref s.mem s.q.head = some he ∧ deref s.mem s.q.tail = some te ∧
      (1 < s.q.size → (∃ ne, deref s.mem he.next = some ne) ∧
        ∃ pe, deref s.mem te.prev = some pe) := by
  have hl : l ≠ [] := by
    intro h
    rw [rep_isempty hr, h] at he
    simp at he
  cases l with
  | nil => exact absurd rfl hl
  | cons x t =>
    rcases snoc_cases (x :: t) with h | ⟨l0, y, h⟩
    · exact absurd h hl
    · have hr2 := hr
      rw [h] at hr2
      refine ⟨_, _, rep_head_load hr, rep_tail_load hr2, ?_⟩
      intro hsz
      have hlen : 1 < (x :: t).length := by
        rw [hr.2.2.2.2] at hsz
        exact_mod_cast hsz
      constructor
      · have ht : t ≠ [] := by
          intro h0
          rw [h0] at hlen
          simp at hlen
        obtain ⟨z, hz, hzd⟩ := hdOr_mem ht
        simp only [hzd]
        exact seg_deref hr.2.1 (List.mem_cons_of_mem _ hz)
      · have h0 : l0 ≠ [] := by
          intro h0
          rw [h, h0] at hlen
          simp at hlen
        obtain ⟨z, hz, hzd⟩ := lastOr_mem h0
        simp only [hzd]
        exact seg_deref hr2.2.1 (by simp [hz])

theorem rep_scan_match {s : State} {l : List (Nat × pid32)} {pid : pid32} {c : Nat}
    (hr : Rep s l)
    (hhd : ∀ he, deref s.mem s.q.head = some he → he.pid ≠ pid)
    (htl : ∀ te, deref s.mem s.q.tail = some te → te.pid ≠ pid)
    (hm : getbypidLoop s.mem pid s.mem.length s.q.head = some (some c)) :
    s.q.head ≠ some c ∧ s.q.tail ≠ some c ∧
      ∃ ce pe ne, load s.mem c = some ce ∧ ce.pid = pid ∧
        deref s.mem ce.prev = some pe ∧ deref s.mem ce.next = some ne := by
  rw [hr.2.2.1, getbypidLoop_seg pid hr.2.1 (seg_length_le hr.1 hr.2.1)] at hm
  simp only [Option.some.injEq, Option.map_eq_some'] at hm
  obtain ⟨x, hx, rfl⟩ := hm
  obtain ⟨hp, l1, l2, rfl, -⟩ := List.find?_eq_some.1 hx
  simp only [decide_eq_true_eq] at hp
  have h1 : l1 ≠ [] := by
    intro h
    subst h
    exact hhd _ (rep_head_load (by simpa using hr)) hp
  have h2 : l2 ≠ [] := by
    intro h
    subst h
    exact htl _ (rep_tail_load hr) hp
  have hseg := hr.2.1
  rw [seg_append] at hseg
  obtain ⟨hs1, hxl, hs2⟩ := hseg
  obtain ⟨hn1, hn2⟩ := nodup_mid_ne hr.1
  obtain ⟨u, hu, hud⟩ := lastOr_mem h1
  obtain ⟨d, hd, hdd⟩ := hdOr_mem h2
  obtain ⟨f, hf, hfd⟩ := hdOr_mem h1
  obtain ⟨g, hg, hgd⟩ := lastOr_mem h2
  refine ⟨?_, ?_, ?_⟩
  · rw [hr.2.2.1, hdOr_append, hfd]
    intro h
    exact hn1 f hf (Option.some.inj h)
  · rw [hr.2.2.2.1, lastOr_append, lastOr_cons, hgd]
    intro h
    exact hn2 g hg (Option.some.inj h)
  · obtain ⟨pe, hpe⟩ := seg_deref hs1 hu
    obtain ⟨ne, hne⟩ := seg_deref hs2 hd
    refine ⟨_, pe, ne, hxl, hp, ?_, ?_⟩
    · simp only [hud]
      exact hpe
    · simp only [hdd]
      exact hne

/-- C20. No operation follows a missing link: on a queue satisfying the
size/emptiness and the link invariant every operation returns, so no pointer
it follows is `NULL` or dangling. In particular, when the queue is not empty
`q->head` and `q->tail` point to entries, and `h->next` and `t->prev` do so
too when `size > 1`; and the entry matched by the scan of `remove` (the
first entry from `head` on that carries the pid, reached when neither head
nor tail carries it) is neither head nor tail, and its `prev` and its `next`
both point to entries. -/
theorem no_missing_link (cfg : Config) (s : State) (hs : SizeInv s) (hl : LinkInv s) :
    ((∀ pid, (enqueue cfg pid s).isSome = true) ∧ (dequeue cfg s).isSome = true ∧
      (getfirst cfg s).isSome = true ∧ (getlast cfg s).isSome = true ∧
      (∀ pid, (remove cfg pid s).isSome = true) ∧
      (∀ pid, (getbypid cfg pid s).isSome = true)) ∧
    (isempty s.q = false →
      ∃ he te, deref s.mem s.q.head = some he ∧ deref s.mem s.q.tail = some te ∧
        (1 < s.q.size → (∃ ne, deref s.mem he.next = some ne) ∧
          ∃ pe, deref s.mem te.prev = some pe)) ∧
    (∀ pid c, (∀ he, deref s.mem s.q.head = some he → he.pid ≠ pid) →
      (∀ te, deref s.mem s.q.tail = some te → te.pid ≠ pid) →
      getbypidLoop s.mem pid s.mem.length s.q.head = some (some c) →
      s.q.head ≠ some c ∧ s.q.tail ≠ some c ∧
        ∃ ce pe ne, load s.mem c = some ce ∧ ce.pid = pid ∧
          deref s.mem ce.prev = some pe ∧ deref s.mem ce.next = some ne) := by
  obtain ⟨l, -, hr⟩ := wellFormed_rep ⟨hs, hl⟩
  refine ⟨⟨?_, ?_, ?_, ?_, ?_, ?_⟩, rep_ends hr, fun pid c => rep_scan_match hr⟩
  · intro pid
    simpa [step] using step_isSome cfg (Call.enqueue pid) hr
  · simpa [step] using step_isSome cfg Call.dequeue hr
  · simpa [step] using step_isSome cfg Call.getfirst hr
  · simpa [step] using step_isSome cfg Call.getlast hr
  · intro pid
    simpa [step] using step_isSome cfg (Call.remove pid) hr
  · intro pid
    simpa [step] using step_isSome cfg (Call.getbypid pid) hr

/-- Witness of C20: the queue holding `1, 2, 3`, whose scan for pid `2`
matches the entry at address `1`. -/
theorem no_missing_link_witness :
    (remove sampleCfg 2 s123).isSome = true ∧
      (∃ he te, deref s123.mem s123.q.head = some he ∧
        deref s123.mem s123.q.tail = some te ∧
        (1 < s123.q.size → (∃ ne, deref s123.mem he.next = some ne) ∧
          ∃ pe, deref s123.mem te.prev = some pe)) ∧
      (s123.q.head ≠ some 1 ∧ s123.q.tail ≠ some 1 ∧
        ∃ ce pe ne, load s123.mem 1 = some ce ∧ ce.pid = 2 ∧
          deref s123.mem ce.prev = some pe ∧ deref s123.mem ce.next = some ne) :=
  have h := no_missing_link sampleCfg s123 (rep_sizeInv rep_s123) (rep_linkInv rep_s123)
  ⟨h.1.2.2.2.2.1 2, h.2.1 (by decide),
    h.2.2 2 1 (by decide) (by decide) (by decide)⟩

end PidQueue
